import Mathlib

/-!
Verification of the Project-Vigil ML routing core
(`vigil-ml-layer/src/{features,predict,routing}.py`) via a shallow
embedding.  Python floats are modelled as exact rationals (ℚ), pandas
DataFrames as a column-name list plus a list of rows of cells, Python
dicts as association lists (duplicate keys collapse to the last binding,
as in dict construction), and fallible model calls as `Except`-valued
functions.  Opaque persisted artifacts (scalers, sklearn models) are
parameters of the definitions; everything the repository's own code does
with them is translated from the source.
-/

namespace Vigil

/-! ## Cells and tables (model of pandas values / DataFrames) -/

/-- A single DataFrame cell.  `num` is a (finite) float, `str` a Python
string, `null` is NaN.  `sqrtOf q` represents the irrational real √q
exactly; it is produced only by the rolling standard deviation (pandas
`std`, ddof = 1), whose value is the square root of the sample
variance `q`. -/
inductive Cell where
  | num : ℚ → Cell
  | str : String → Cell
  | sqrtOf : ℚ → Cell
  | null : Cell
deriving DecidableEq

/-- Numeric contents of a cell, if any (model of "is a float, not NaN"). -/
def Cell.num? : Cell → Option ℚ
  | .num q => some q
  | _ => none

/-- True exactly for NaN cells. -/
def Cell.isNull : Cell → Bool
  | .null => true
  | _ => false

/-- True exactly for string cells. -/
def Cell.isStr : Cell → Bool
  | .str _ => true
  | _ => false

/-- Python `str()` of a cell, as used by `.astype(str)` (NaN stringifies
to "nan"; the `sqrtOf` rendering is never reached on node-id columns). -/
def cellToStr : Cell → String
  | .num q => toString q
  | .str s => s
  | .sqrtOf q => "sqrt " ++ toString q
  | .null => "nan"

/-- Model of `.astype(str)` applied to one cell. -/
def astypeStr (c : Cell) : Cell := .str (cellToStr c)

/-- Elementwise product (pandas `*`): NaN and non-numeric operands
propagate to NaN. -/
def cellMul : Cell → Cell → Cell
  | .num a, .num b => .num (a * b)
  | _, _ => .null

/-- Elementwise difference (pandas `-`), NaN-propagating. -/
def cellSub : Cell → Cell → Cell
  | .num a, .num b => .num (a - b)
  | _, _ => .null

/-- Model of `(series > threshold).astype(int)` on one cell: NaN compares
as False (pandas semantics); the claims exercise only numeric cells, so
non-numeric cells are also modelled as 0. -/
def cellGtInt (threshold : ℚ) : Cell → Cell
  | .num v => .num (if threshold < v then 1 else 0)
  | _ => .num 0

/-- Model of `fillna d` on one cell. -/
def fillCell (d : ℚ) (c : Cell) : Cell := if c = .null then .num d else c

/-- One DataFrame row: cells aligned with the table's column list. -/
abbrev Row := List Cell

/-- A DataFrame: ordered column names plus rows of cells. -/
structure Table where
  cols : List String
  rows : List Row
deriving DecidableEq

/-- Index of a column name (first occurrence), `none` if absent —
`df.columns.get_loc` / label-based addressing. -/
def colIdx : List String → String → Option ℕ
  | [], _ => none
  | x :: xs, c => if x == c then some 0 else (colIdx xs c).map (· + 1)

/-- Cell of row `r` in column `c` (NaN when the column is absent or the
row is short). -/
def getCell (cols : List String) (r : Row) (c : String) : Cell :=
  match colIdx cols c with
  | some i => r.getD i .null
  | none => .null

/-- Model of `df[c] = vals`: overwrite the column in place if it exists,
otherwise append it on the right (pandas column-assignment semantics). -/
def setCol (t : Table) (c : String) (vals : List Cell) : Table :=
  match colIdx t.cols c with
  | some i => ⟨t.cols, List.zipWith (fun r v => r.set i v) t.rows vals⟩
  | none => ⟨t.cols ++ [c], List.zipWith (fun r v => r ++ [v]) t.rows vals⟩

/-- Well-formed table: distinct column labels, rows aligned with the
header. -/
def Table.WF (t : Table) : Prop :=
  t.cols.Nodup ∧ ∀ r ∈ t.rows, r.length = t.cols.length

instance (t : Table) : Decidable t.WF := by
  unfold Table.WF; infer_instance

/-! ## Python string ordering and prefix test -/

/-- Python `str.startswith`, on exact character lists. -/
def pyStartsWith (s pre : String) : Bool := pre.data.isPrefixOf s.data

/-- Lexicographic `<` on character lists, by code point — Python's
string comparison, used by `sort_values` on the node-id column. -/
def charsLt : List Char → List Char → Bool
  | [], [] => false
  | [], _ :: _ => true
  | _ :: _, [] => false
  | a :: as, b :: bs =>
    if a.toNat < b.toNat then true
    else if b.toNat < a.toNat then false
    else charsLt as bs

/-- Python string `<`. -/
def pyStrLt (s t : String) : Bool := charsLt s.data t.data

/-! ## Feature-name construction (src/features.py) -/

/-- Interaction column name `f"{col_a}_x_{col_b}"`. -/
def interactionName (a b : String) : String := a ++ "_x_" ++ b

/-- Threshold column name `f"is_high_{col}"`. -/
def thresholdName (c : String) : String := "is_high_" ++ c

/-- Trend column name `f"{metric}_trend"`. -/
def trendName (m : String) : String := m ++ "_trend"

/-- Rolling-mean column name `f"{metric}_rolling_mean_{window}"`. -/
def rollingMeanName (m : String) (w : ℕ) : String :=
  m ++ "_rolling_mean_" ++ toString w

/-- Rolling-std column name `f"{metric}_rolling_std_{window}"`. -/
def rollingStdName (m : String) (w : ℕ) : String :=
  m ++ "_rolling_std_" ++ toString w

/-- Lag column name `f"{metric}_lag_{lag}"`. -/
def lagName (m : String) (k : ℕ) : String := m ++ "_lag_" ++ toString k

/-! ## SentryPredictor.get_exog_feature_list (src/predict.py lines 74-80) -/

/-- Translation of `get_exog_feature_list`:
`[f for f in all_features if not f.startswith(target)]`. -/
def get_exog_feature_list (all_features : List String) (target : String) :
    List String :=
  all_features.filter (fun f => !(pyStartsWith f target))

/-! ## SentryPredictor.forecast_latency (src/predict.py lines 102-141) -/

/-- Translation of `forecast_latency`.  The per-node sklearn models are
opaque: `latencyModels node` is `none` when no `latency_model_<node>`
artifact exists, and a loaded model is a function that either raises
(`Except.error`) or returns a float prediction.  The penalty value and
the clamp bounds are the literals of the source. -/
def forecast_latency {β : Type} (latencyModels : String → Option (β → Except Unit ℚ))
    (node_id : String) (exog_row : β) : ℚ :=
  match latencyModels node_id with
  | none => 9999
  | some model =>
    match model exog_row with
    | .error _ => 9999
    | .ok prediction =>
      if prediction < 0 then 0
      else if 10000 < prediction then 10000
      else prediction

/-! ## Routing optimizer (src/routing.py) -/

/-- Optimizer weights from the `optimization` section of the config. -/
structure OptConfig where
  weight_failure : ℚ
  weight_latency : ℚ
deriving DecidableEq

/-- Python `min` over a nonempty list of floats (`[]` is unreachable:
the caller checks the node list first). -/
def listMin : List ℚ → ℚ
  | [] => 0
  | a :: rest => rest.foldl (fun m x => if x < m then x else m) a

/-- Python `max` over a nonempty list of floats. -/
def listMax : List ℚ → ℚ
  | [] => 0
  | a :: rest => rest.foldl (fun m x => if m < x then x else m) a

/-- The intermediate `normalized_latencies` dict of `optimize_routing`:
min-max normalization over the candidate set, with the all-equal case
defined as 0 to avoid division by zero.  Dicts whose keys are exactly
`nodes` are modelled as functions. -/
def normalizedLatency (latencies : String → ℚ) (nodes : List String)
    (n : String) : ℚ :=
  let minLat := listMin (nodes.map latencies)
  let maxLat := listMax (nodes.map latencies)
  if maxLat - minLat = 0 then 0
  else (latencies n - minLat) / (maxLat - minLat)

/-- Python `min(iterable, key=...)` kernel: scan keeping the current
best, replacing it only on a strictly smaller value (so the first
minimum wins ties). -/
def pyMinAux (best : String × ℚ) : List (String × ℚ) → String × ℚ
  | [] => best
  | q :: rest => if q.2 < best.2 then pyMinAux q rest else pyMinAux best rest

/-- `min(cost_scores, key=cost_scores.get)`: the dict is an association
list in insertion order; `min` of an empty dict is unreachable here. -/
def pyMinByVal : List (String × ℚ) → String
  | [] => "no_nodes_available"
  | p :: rest => (pyMinAux p rest).1

/-- Translation of `optimize_routing` (src/routing.py lines 24-54).  The
`failure_probs` and `latencies` dicts are built by the caller with
exactly the keys in `nodes`, so they are modelled as total functions and
the `except` fallback path (reachable only via a missing dict key) is
unreachable in the model. -/
def optimize_routing (failure_probs latencies : String → ℚ)
    (nodes : List String) (cfg : OptConfig) : String × List (String × ℚ) :=
  if nodes = [] then ("no_nodes_available", [])
  else
    let cost_scores := nodes.map (fun n =>
      (n, cfg.weight_failure * failure_probs n
            + cfg.weight_latency * normalizedLatency latencies nodes n))
    (pyMinByVal cost_scores, cost_scores)

/-! ## SentryPredictor.get_recommendation (src/predict.py lines 170-243) -/

/-- One entry of `all_predictions` before cost attachment. -/
structure Pred where
  node_id : String
  failure_prob : ℚ
  predicted_latency_ms : ℚ
  anomaly_detected : Bool
deriving DecidableEq

/-- One entry of `all_predictions` after `p['cost_score'] = ...`. -/
structure ScoredPred where
  node_id : String
  failure_prob : ℚ
  predicted_latency_ms : ℚ
  anomaly_detected : Bool
  cost_score : ℚ
deriving DecidableEq

/-- The tuple returned by `get_recommendation`.  The
`recommendation_details` dict is `none` when empty (`{}`). -/
structure Bundle where
  recommended_node : String
  explanation : String
  recommendation_details : Option ScoredPred
  all_predictions : List ScoredPred
deriving DecidableEq

/-- Stable insertion of `a` before the first element `b` with
`le a b`. -/
def insertSortedBy {α : Type} (le : α → α → Bool) (a : α) : List α → List α
  | [] => [a]
  | b :: l => if le a b then a :: b :: l else b :: insertSortedBy le a l

/-- Stable sort (model of Python `sorted` / the row order produced by
`sort_values`; pandas' default quicksort leaves tie order unspecified,
which a stable order refines). -/
def sortedBy {α : Type} (le : α → α → Bool) : List α → List α
  | [] => []
  | a :: l => insertSortedBy le a (sortedBy le (l))

/-- Python `dict.get(k, d)` over an association list built by successive
insertions (later bindings shadow earlier ones). -/
def pyDictGet (l : List (String × ℚ)) (k : String) (d : ℚ) : ℚ :=
  match l.reverse.find? (fun p => p.1 == k) with
  | some p => p.2
  | none => d

/-- Translation of `generate_explanation` (src/predict.py lines
143-168).  Python's `:.0f` / `:.2%` float formatting is rendered with
`toString` on exact rationals; no claim inspects these digits. -/
def generate_explanation (recommended_node : String) (rec_pred : ScoredPred)
    (all_preds : List ScoredPred) : String :=
  let explanation := "Selected " ++ recommended_node ++ " with "
    ++ toString rec_pred.predicted_latency_ms
    ++ "ms predicted latency and " ++ toString rec_pred.failure_prob
    ++ " failure risk."
  let explanation :=
    if rec_pred.anomaly_detected then
      explanation ++ " Anomaly detected on this node."
    else explanation
  let others := sortedBy (fun p q => decide (p.cost_score ≤ q.cost_score))
    (all_preds.filter (fun p => p.node_id != recommended_node))
  let explanation :=
    match others with
    | [] => explanation
    | other :: _ =>
      explanation ++ " "
        ++ toString (other.predicted_latency_ms - rec_pred.predicted_latency_ms)
        ++ "ms faster than next best (" ++ other.node_id ++ ")."
  explanation ++ " Note: Router applies auto-calibration (learns environment offset) and hybrid scoring (70% prediction + 30% recent actual) for final routing decision."

/-- The body of the per-node loop of `get_recommendation` (lines
191-222).  The fallible steps of the `try` block are grouped by the
model they serve: `anomalyStep` covers `features_row[all_features]`,
anomaly scaling and `predict_anomaly`; `failureStep` covers failure
scaling and `predict_failure_prob`; `exogStep` covers
`features_row[exog_features]`.  Any `Except.error` models a raised
exception, which the loop catches by skipping the node.
`forecast_latency` itself is total (never raises). -/
def runNode {α β : Type} (anomalyStep : α → Except Unit Bool)
    (failureStep : α → Except Unit ℚ) (exogStep : α → Except Unit β)
    (latencyModels : String → Option (β → Except Unit ℚ))
    (node_id : String) (features_row : α) : Option Pred :=
  match exogStep features_row, anomalyStep features_row,
      failureStep features_row with
  | .ok exog_row, .ok anomaly, .ok failure_prob =>
    some ⟨node_id, failure_prob,
      forecast_latency latencyModels node_id exog_row, anomaly⟩
  | _, _, _ => none

/-- Everything `get_recommendation` does after the per-node loop (lines
224-243), as a function of the accumulated `all_predictions`. -/
def bundleFrom (cfg : OptConfig) (all_predictions : List Pred) : Bundle :=
  if all_predictions = [] then
    ⟨"no_nodes_available", "No nodes were available for prediction.", none, []⟩
  else
    let node_names := all_predictions.map (·.node_id)
    let failure_probs := fun n =>
      pyDictGet (all_predictions.map (fun p => (p.node_id, p.failure_prob))) n 0
    let latencies := fun n =>
      pyDictGet (all_predictions.map (fun p => (p.node_id, p.predicted_latency_ms))) n 0
    let res := optimize_routing failure_probs latencies node_names cfg
    let scored := all_predictions.map (fun p =>
      (⟨p.node_id, p.failure_prob, p.predicted_latency_ms, p.anomaly_detected,
        pyDictGet res.2 p.node_id 999⟩ : ScoredPred))
    let rec_details := scored.find? (fun p => p.node_id == res.1)
    let explanation :=
      match rec_details with
      | some rp => generate_explanation res.1 rp scored
      | none => ""
    ⟨res.1, explanation, rec_details, scored⟩

/-- Translation of `get_recommendation`: fold the per-node loop over the
Live Feature Map (a dict `node_id → engineered feature row`, modelled as
an association list), then delegate to the post-loop code. -/
def get_recommendation {α β : Type} (anomalyStep : α → Except Unit Bool)
    (failureStep : α → Except Unit ℚ) (exogStep : α → Except Unit β)
    (latencyModels : String → Option (β → Except Unit ℚ)) (cfg : OptConfig)
    (engineered_data : List (String × α)) : Bundle :=
  bundleFrom cfg (engineered_data.filterMap
    (fun e => runNode anomalyStep failureStep exogStep latencyModels e.1 e.2))

/-! ## engineer_features error structure (src/features.py lines 71-172) -/

/-- The `try`/`except` skeleton of `engineer_features`: the two explicit
required-column checks raise `KeyError`, which the `except KeyError`
clause re-raises to the caller; every other exception from the body is
caught by `except Exception` and the (possibly partially transformed)
DataFrame is returned instead.  `body` returns `.error u` to model "the
derivation raised after producing table `u`". -/
def engineer_featuresWith (body : Table → Except Table Table) (t : Table) :
    Except String Table :=
  if "timestamp" ∉ t.cols then .error "Missing 'timestamp' column."
  else if "node_id" ∉ t.cols then .error "Missing 'node_id' column."
  else
    match body t with
    | .ok u => .ok u
    | .error u => .ok u

/-! ## The feature pipeline body (src/features.py lines 82-164)

The derivation pipeline is total in this model (see
`engineer_featuresWith` for the error skeleton): every column access it
performs is guarded by a membership test in the source.  `pd.to_datetime`
is modelled as the identity on already-parsed timestamp cells. -/

/-- Feature-engineering section of the config
(`config['feature_engineering']`).  Interaction pairs are kept as raw
lists because the source checks `len(pair) == 2` itself. -/
structure FEConfig where
  feature_defaults : List (String × ℚ)
  interaction_pairs : List (List String)
  thresholds : List (String × ℚ)
  metrics_to_engineer : List String
  rolling_windows : List ℕ
  lag_periods : List ℕ

/-- The grouping key of `df.groupby('node_id')`: the string contents of
the row's node-id cell (the column holds `.str` cells after the initial
`astype(str)`, on which this is the identity). -/
def keyOf (cols : List String) (r : Row) : String :=
  cellToStr (getCell cols r "node_id")

/-- Model of `df['node_id'] = df['node_id'].astype(str)`. -/
def astypeNodeId (t : Table) : Table :=
  setCol t "node_id" (t.rows.map (fun r => astypeStr (getCell t.cols r "node_id")))

/-- Timestamp-cell comparison used by `sort_values`: numeric timestamps
in their usual order; NaT sorts last (pandas `na_position='last'`); the
remaining cross-constructor cases are given a fixed total order (they do
not occur on parsed timestamp columns). -/
def tsLe (a b : Cell) : Bool :=
  match a, b with
  | .num x, .num y => decide (x ≤ y)
  | .str x, .str y => !(pyStrLt y x)
  | .sqrtOf x, .sqrtOf y => decide (x ≤ y)
  | .num _, _ => true
  | _, .num _ => false
  | .str _, _ => true
  | _, .str _ => false
  | .sqrtOf _, _ => true
  | _, .sqrtOf _ => false
  | .null, .null => true

/-- Row comparison of `df.sort_values(by=['node_id', 'timestamp'])`:
lexicographic on (node-id string, timestamp cell). -/
def rowLe (cols : List String) (a b : Row) : Bool :=
  if keyOf cols a = keyOf cols b then
    tsLe (getCell cols a "timestamp") (getCell cols b "timestamp")
  else pyStrLt (keyOf cols a) (keyOf cols b)

/-- Model of the `sort_values` call.  pandas' default quicksort leaves
the order of ties unspecified; the model fixes the stable order. -/
def sortStage (t : Table) : Table := ⟨t.cols, sortedBy (rowLe t.cols) t.rows⟩

/-- Overwrite column `c` cellwise with `f` applied to its cells. -/
def mapColCells (t : Table) (c : String) (f : Cell → Cell) : Table :=
  setCol t c (t.rows.map (fun r => f (getCell t.cols r c)))

/-- One iteration of the `feature_defaults` loop (lines 93-103): fill
nulls of an existing column with the default, or create the column as
the constant default. -/
def applyFeatureDefault (t : Table) (fd : String × ℚ) : Table :=
  if fd.1 ∈ t.cols then mapColCells t fd.1 (fillCell fd.2)
  else setCol t fd.1 (t.rows.map (fun _ => .num fd.2))

/-- The whole `feature_defaults` loop. -/
def applyFeatureDefaults (cfg : FEConfig) (t : Table) : Table :=
  cfg.feature_defaults.foldl applyFeatureDefault t

/-- One iteration of `engineer_interaction_features` (lines 23-30):
`df[a_x_b] = df[a] * df[b]` when the pair is a valid 2-list of present
columns, otherwise skip with a warning. -/
def applyInteraction (t : Table) (pair : List String) : Table :=
  match pair with
  | [a, b] =>
    if a ∈ t.cols ∧ b ∈ t.cols then
      setCol t (interactionName a b)
        (t.rows.map (fun r => cellMul (getCell t.cols r a) (getCell t.cols r b)))
    else t
  | _ => t

/-- Translation of `engineer_interaction_features` (its `try` body is
total here, so the catch-and-return-df clause is not reachable). -/
def engineer_interaction_features (t : Table) (cfg : FEConfig) : Table :=
  cfg.interaction_pairs.foldl applyInteraction t

/-- One iteration of `engineer_threshold_features` (lines 48-53). -/
def applyThreshold (t : Table) (th : String × ℚ) : Table :=
  if th.1 ∈ t.cols then
    setCol t (thresholdName th.1)
      (t.rows.map (fun r => cellGtInt th.2 (getCell t.cols r th.1)))
  else t

/-- Translation of `engineer_threshold_features`. -/
def engineer_threshold_features (t : Table) (cfg : FEConfig) : Table :=
  cfg.thresholds.foldl applyThreshold t

/-- `all_metrics_to_process = list(set(metrics + interaction_cols +
threshold_cols))` (lines 115-120).  Python's set iteration order is
unspecified; the model fixes first-occurrence order, which affects only
the relative order of the generated columns, not their values. -/
def allMetricsToProcess (cfg : FEConfig) : List String :=
  (cfg.metrics_to_engineer
    ++ cfg.interaction_pairs.filterMap (fun p =>
        match p with
        | [a, b] => some (interactionName a b)
        | _ => none)
    ++ cfg.thresholds.map (fun th => thresholdName th.1)).eraseDups

/-- Per-row group transform: element `r` of `rest` is sent to
`h (projections of r's whole group in full) (r's position inside its
group)`, where `pre` holds the rows already processed.  This is the
alignment semantics shared by `grouped[...].transform`, and
`grouped[...].shift`. -/
def mwgAux (key : Row → String) (h : List Cell → ℕ → Cell)
    (proj : Row → Cell) (full : List Row) :
    List Row → List Row → List Cell
  | _, [] => []
  | pre, r :: rest =>
    h ((full.filter (fun s => key s == key r)).map proj)
      ((pre.filter (fun s => key s == key r)).length)
      :: mwgAux key h proj full (pre ++ [r]) rest

/-- Group transform over all rows of a table. -/
def mapWithGroup (key : Row → String) (h : List Cell → ℕ → Cell)
    (proj : Row → Cell) (rows : List Row) : List Cell :=
  mwgAux key h proj rows [] rows

/-- `Series.diff()` within one group: current minus previous value,
NaN at the group's first row and when either operand is NaN. -/
def diffAt (vals : List Cell) (pos : ℕ) : Cell :=
  if pos = 0 then .null
  else cellSub (vals.getD pos .null) (vals.getD (pos - 1) .null)

/-- The window of `rolling(window=w, min_periods=1)` at position `pos`:
the last `min(w, pos+1)` values up to and including `pos`. -/
def windowSlice (w : ℕ) (vals : List Cell) (pos : ℕ) : List Cell :=
  (vals.take (pos + 1)).drop (pos + 1 - w)

/-- Arithmetic mean of a list of rationals. -/
def meanQ (l : List ℚ) : ℚ := l.sum / l.length

/-- Sample variance (ddof = 1), the square of pandas `std`. -/
def sampleVarQ (l : List ℚ) : ℚ :=
  ((l.map (fun x => (x - meanQ l) ^ 2)).sum) / ((l.length : ℚ) - 1)

/-- `rolling(...).mean()` at one position: mean of the non-NaN window
values, NaN when no valid observation exists (min_periods = 1). -/
def rollMeanAt (w : ℕ) (vals : List Cell) (pos : ℕ) : Cell :=
  if ((windowSlice w vals pos).filterMap Cell.num?).isEmpty then .null
  else .num (meanQ ((windowSlice w vals pos).filterMap Cell.num?))

/-- `rolling(...).std()` at one position: sample standard deviation of
the non-NaN window values — NaN with fewer than two valid observations
(the std of a single point is undefined), otherwise the exact square
root of the sample variance. -/
def rollStdAt (w : ℕ) (vals : List Cell) (pos : ℕ) : Cell :=
  if ((windowSlice w vals pos).filterMap Cell.num?).length < 2 then .null
  else .sqrtOf (sampleVarQ ((windowSlice w vals pos).filterMap Cell.num?))

/-- `grouped.shift(k)` at one position: the value `k` rows earlier in
the group, NaN when there is none. -/
def lagAt (k : ℕ) (vals : List Cell) (pos : ℕ) : Cell :=
  if pos < k then .null else vals.getD (pos - k) .null

/-- `df[name] = grouped[metric].transform(...)` (or `.shift`): append or
overwrite `name` with the group transform of column `metric`. -/
def addGroupCol (t : Table) (name metric : String)
    (h : List Cell → ℕ → Cell) : Table :=
  setCol t name
    (mapWithGroup (keyOf t.cols) h (fun r => getCell t.cols r metric) t.rows)

/-- One iteration of the rolling/lag loop (lines 130-151): skip absent
metrics, else derive trend, per-window rolling mean and std, and
per-lag shifted columns. -/
def processMetric (cfg : FEConfig) (t : Table) (metric : String) : Table :=
  if metric ∈ t.cols then
    let t1 := addGroupCol t (trendName metric) metric diffAt
    let t2 := cfg.rolling_windows.foldl (fun u w =>
      addGroupCol (addGroupCol u (rollingMeanName metric w) metric (rollMeanAt w))
        (rollingStdName metric w) metric (rollStdAt w)) t1
    cfg.lag_periods.foldl (fun u k =>
      addGroupCol u (lagName metric k) metric (lagAt k)) t2
  else t

/-- The whole rolling/lag derivation loop. -/
def deriveStage (cfg : FEConfig) (t : Table) : Table :=
  (allMetricsToProcess cfg).foldl (processMetric cfg) t

/-- The three identity/metadata columns excluded from the final
null-fill (line 156). -/
def metadataCols : List String := ["timestamp", "node_id", "client_type"]

/-- `df[numeric_cols] = df[numeric_cols].fillna(0)` where
`numeric_cols` is every column not in `metadataCols` (lines 156-158). -/
def fillnaStage (t : Table) : Table :=
  ⟨t.cols, t.rows.map (fun r => List.zipWith
    (fun cname cell => if cname ∈ metadataCols then cell else fillCell 0 cell)
    t.cols r)⟩

/-- The pipeline up to (but not including) the rolling/lag derivation
loop: `astype(str)`, (identity `to_datetime`), sort, defaults,
interaction features, threshold features.  This is the table the
`groupby` loop iterates over. -/
def engineerPrepared (cfg : FEConfig) (t : Table) : Table :=
  engineer_threshold_features
    (engineer_interaction_features
      (applyFeatureDefaults cfg (sortStage (astypeNodeId t))) cfg) cfg

/-- The pipeline up to and including the rolling/lag derivation loop. -/
def engineerDerived (cfg : FEConfig) (t : Table) : Table :=
  deriveStage cfg (engineerPrepared cfg t)

/-- The whole (total) body of `engineer_features` after the two schema
checks: derivation, final null-fill, final `astype(str)` on node_id. -/
def engineerBody (cfg : FEConfig) (t : Table) : Table :=
  astypeNodeId (fillnaStage (engineerDerived cfg t))

/-- Translation of `engineer_features` (lines 60-172): schema checks
that propagate, then the derivation body. -/
def engineer_features (cfg : FEConfig) (t : Table) : Except String Table :=
  engineer_featuresWith (fun u => .ok (engineerBody cfg u)) t

/-- All cells of one named column, in row order. -/
def colCells (t : Table) (c : String) : List Cell :=
  t.rows.map (fun r => getCell t.cols r c)

/-- The (column-name, per-group transform) pairs the rolling/lag loop
writes for one processed metric, in write order: trend, then per window
rolling mean and rolling std, then per lag period the shifted column. -/
def metricWrites (cfg : FEConfig) (m : String) :
    List (String × (List Cell → ℕ → Cell)) :=
  (trendName m, diffAt)
    :: (cfg.rolling_windows.flatMap (fun w =>
          [(rollingMeanName m w, rollMeanAt w),
           (rollingStdName m w, rollStdAt w)])
        ++ cfg.lag_periods.map (fun k => (lagName m k, lagAt k)))

/-- The derived-column names written for the metrics of `ms` that are
present as columns of `P`, in write order. -/
def writeNames (cfg : FEConfig) (P : Table) (ms : List String) :
    List String :=
  (ms.filter (fun m => m ∈ P.cols)).flatMap
    (fun m => (metricWrites cfg m).map (fun p => p.1))

/-- The derived-column names the rolling/lag loop writes for the
metrics it actually processes (those of the processed list present as
columns of `t`), in write order. -/
def derivedNames (cfg : FEConfig) (t : Table) : List String :=
  writeNames cfg t (allMetricsToProcess cfg)

/-- Collision-free naming: the derived columns the loop writes are
pairwise distinct, distinct from every pre-existing column, and no
processed metric is itself named like a derived column (always true for
realistic metric names; a metric literally named like a derived column
would overwrite or be confused with it). -/
def FreshDerived (cfg : FEConfig) (t : Table) : Prop :=
  (derivedNames cfg t).Nodup ∧ (∀ d ∈ derivedNames cfg t, d ∉ t.cols)
    ∧ ∀ m ∈ allMetricsToProcess cfg, m ∉ derivedNames cfg t

instance (cfg : FEConfig) (t : Table) : Decidable (FreshDerived cfg t) := by
  unfold FreshDerived; infer_instance

/-- The grouped column the loop computes for metric `m` of table `P`
with per-group transform `h` (values of `m` grouped by node key,
transformed, realigned to row order). -/
def groupedCol (h : List Cell → ℕ → Cell) (P : Table) (m : String) :
    List Cell :=
  mapWithGroup (keyOf P.cols) h (fun r => getCell P.cols r m) P.rows

/-- Row `i` is the first row of its node's series in `t`: no earlier
row has the same node key. -/
def firstOfGroup (t : Table) (i : ℕ) : Prop :=
  (t.rows.take i).filter
    (fun s => keyOf t.cols s == keyOf t.cols (t.rows.getD i [])) = []

instance (t : Table) (i : ℕ) : Decidable (firstOfGroup t i) := by
  unfold firstOfGroup; infer_instance

/-- The column list only ever grows on the right. -/
def ColsExt (t u : Table) : Prop := ∃ ext, u.cols = t.cols ++ ext

/-- Row `r'` of an extended table agrees with row `r` of the base table
on every base column. -/
def RowAgrees (pcols dcols : List String) (r r' : Row) : Prop :=
  ∀ c ∈ pcols, getCell pcols r c = getCell dcols r' c

/-- Invariant maintained by the rolling/lag loop over the prepared
table `P`: the current table `D` is well-formed, extends `P`'s columns
on the right, and its rows agree positionally with `P`'s rows on every
column of `P`. -/
def DeriveInv (P D : Table) : Prop :=
  D.WF ∧ ColsExt P D
    ∧ List.Forall₂ (RowAgrees P.cols D.cols) P.rows D.rows

/-- The rows of table `t` whose node key is `A`, in row order (the
"samples of node A"). -/
def rowsOfNode (t : Table) (A : String) : List Row :=
  t.rows.filter (fun r => keyOf t.cols r == A)

/-- Every node-id cell of the table is a string cell (established by the
initial `astype(str)` and preserved by the rest of the pipeline). -/
def NodeIdStr (t : Table) : Prop :=
  ∀ cell ∈ colCells t "node_id", cell.isStr = true

/-- The effect of `df[name] = ...` on one row: overwrite position
`colIdx cols name` when the column exists, else append the cell. -/
def rowUpd (cols : List String) (name : String) (r : Row) (v : Cell) : Row :=
  match colIdx cols name with
  | some i => r.set i v
  | none => r ++ [v]

/-- Normal form of a per-group transform restricted to one group: the
`j`-th surviving row is paired with `h groupVals (n + j)`. -/
def gpair (groupVals : List Cell) (h : List Cell → ℕ → Cell) :
    ℕ → List Row → List (Row × Cell)
  | _, [] => []
  | n, r :: rs => (r, h groupVals n) :: gpair groupVals h (n + 1) rs

/-- Two pipeline states that agree on schema and on node `A`'s rows
(the simulation invariant for per-node independence): both well-formed,
`node_id` present, equal column lists, equal `A`-row lists, and
string-typed node ids. -/
def SimInv (A : String) (t₁ t₂ : Table) : Prop :=
  t₁.WF ∧ t₂.WF ∧ "node_id" ∈ t₁.cols ∧ t₁.cols = t₂.cols
    ∧ rowsOfNode t₁ A = rowsOfNode t₂ A ∧ NodeIdStr t₁ ∧ NodeIdStr t₂

/-! ## Concrete instances used by witnesses -/

/-- Small feature-engineering config used by the pipeline witnesses. -/
def cfgEx : FEConfig :=
  ⟨[("cpu_usage", 0)], [["cpu_usage", "latency_ms"]], [("cpu_usage", 80)],
    ["cpu_usage", "latency_ms"], [3], [1]⟩

/-- Small raw table (two nodes, two samples each, one NaN) used by the
pipeline witnesses. -/
def tEx : Table :=
  ⟨["timestamp", "node_id", "client_type", "cpu_usage", "latency_ms"],
   [[.num 2, .str "b", .str "agave", .num 70, .num 120],
    [.num 1, .str "a", .str "agave", .num 50, .num 100],
    [.num 2, .str "a", .str "agave", .num 90, .null],
    [.num 1, .str "b", .str "agave", .num 60, .num 110]]⟩

/-- A second raw table agreeing with `tEx` on node `a`'s samples but
with node `b`'s history replaced (different values, an extra sample). -/
def tEx2 : Table :=
  ⟨["timestamp", "node_id", "client_type", "cpu_usage", "latency_ms"],
   [[.num 2, .str "b", .str "agave", .num 10, .null],
    [.num 1, .str "a", .str "agave", .num 50, .num 100],
    [.num 2, .str "a", .str "agave", .num 90, .null],
    [.num 3, .str "b", .str "agave", .num 20, .num 300],
    [.num 1, .str "b", .str "agave", .num 15, .num 5]]⟩

/-- Concrete per-node latency model table exercising every branch of
`forecast_latency`. -/
def latModelsEx : String → Option (Unit → Except Unit ℚ) := fun n =>
  if n = "missing" then none
  else if n = "raises" then some (fun _ => .error ())
  else if n = "neg" then some (fun _ => .ok (-5))
  else if n = "big" then some (fun _ => .ok 20000)
  else some (fun _ => .ok 42)

/-- The recommended node is the first arg-min of `cost` in scan order:
every node strictly before it costs strictly more, every node after it
costs at least as much. -/
def FirstArgmin (cost : String → ℚ) (nodes : List String) (n : String) :
    Prop :=
  ∃ l₁ l₂, nodes = l₁ ++ n :: l₂ ∧ (∀ m ∈ l₁, cost n < cost m)
    ∧ ∀ m ∈ l₂, cost n ≤ cost m

/-- Failure probabilities for the C4 witness. -/
def fpEx : String → ℚ := fun n => if n = "a" then 3/10 else 1/10

/-- Latencies for the C4 witness. -/
def latEx : String → ℚ := fun n => if n = "a" then 50 else 150

/-- Constant latencies for the C5 witness. -/
def latConstEx : String → ℚ := fun _ => 80

/-- Anomaly step that always raises. -/
def alwaysRaiseBool : Unit → Except Unit Bool := fun _ => .error ()

/-- Failure-probability step that always raises. -/
def alwaysRaiseRat : Unit → Except Unit ℚ := fun _ => .error ()

/-- Exogenous-row extraction step that always raises. -/
def alwaysRaiseRow : Unit → Except Unit Unit := fun _ => .error ()

/-- Per-node inference map used by the C3 witness: node "bad" raises
during exogenous-feature extraction, other nodes succeed. -/
def exogStepEx : Bool → Except Unit Bool := fun r =>
  if r then .error () else .ok r

/-- Table with both required columns present. -/
def schemaOkT : Table := ⟨["timestamp", "node_id", "cpu_usage"], []⟩

/-- Table lacking the `node_id` column. -/
def schemaBadT : Table := ⟨["timestamp", "cpu_usage"], []⟩


/-! ## Helper lemmas -/

lemma pyStartsWith_append (a b : String) : pyStartsWith (a ++ b) a = true := by
  simp only [pyStartsWith, String.data_append]
  rw [List.isPrefixOf_iff_prefix]
  exact List.prefix_append _ _

lemma pyStartsWith_append_append (a b c : String) :
    pyStartsWith (a ++ b ++ c) a = true := by
  rw [String.append_assoc]
  exact pyStartsWith_append a (b ++ c)

lemma pyStartsWith_self (a : String) : pyStartsWith a a = true := by
  simpa using pyStartsWith_append a ""

/-! ## C1: leakage exclusion of the latency forecaster's feature set -/

/-- C1 (counterexample): the claim states that the exogenous feature
list never contains a column derived from the latency target, including
interaction products such as `a_x_latency_ms`.  With target
`latency_ms` and a feature list containing the interaction column
`cpu_usage_x_latency_ms` (the name `engineer_interaction_features`
builds for the configured pair `(cpu_usage, latency_ms)`), the filter
`not f.startswith(target)` retains that column, so the claim is false. -/
theorem exog_keeps_interaction_with_target :
    interactionName "cpu_usage" "latency_ms" ∈
      get_exog_feature_list
        ["cpu_usage", "latency_ms", interactionName "cpu_usage" "latency_ms",
          trendName "latency_ms", rollingMeanName "latency_ms" 5,
          lagName "latency_ms" 1]
        "latency_ms" := by decide

/-- C1 (amended): the exogenous feature list consists of exactly those
features whose names do not start with the latency target's name; in
particular the target itself and its trend, rolling-mean, rolling-std
and lag derivatives (whose names all start with the target) are always
excluded, but an interaction column `a_x_target` does not start with the
target and is retained. -/
theorem exog_excludes_target_prefixed (all_features : List String)
    (target : String) (w k : ℕ) (f : String) :
    (f ∈ get_exog_feature_list all_features target ↔
      f ∈ all_features ∧ pyStartsWith f target = false)
    ∧ pyStartsWith target target = true
    ∧ pyStartsWith (trendName target) target = true
    ∧ pyStartsWith (rollingMeanName target w) target = true
    ∧ pyStartsWith (rollingStdName target w) target = true
    ∧ pyStartsWith (lagName target k) target = true := by
  refine ⟨?_, pyStartsWith_self target, pyStartsWith_append _ _,
    pyStartsWith_append_append _ _ _, pyStartsWith_append_append _ _ _,
    pyStartsWith_append_append _ _ _⟩
  simp [get_exog_feature_list, List.mem_filter]

/-! ## C6: latency forecaster fallback and clamping -/

/-- C6: `forecast_latency` is a total function (it never raises);
it returns the penalty 9999 when no per-node model exists or when the
model computation raises; otherwise it floors negative predictions at 0,
caps predictions above 10000 at 10000, and passes in-range predictions
through; its result always lies in [0, 10000]. -/
theorem forecast_latency_penalty_and_clamp {β : Type}
    (latencyModels : String → Option (β → Except Unit ℚ)) (node_id : String)
    (exog_row : β) :
    (latencyModels node_id = none →
      forecast_latency latencyModels node_id exog_row = 9999)
    ∧ (∀ model, latencyModels node_id = some model →
        (∀ e, model exog_row = .error e →
          forecast_latency latencyModels node_id exog_row = 9999)
        ∧ (∀ p, model exog_row = .ok p →
            (p < 0 → forecast_latency latencyModels node_id exog_row = 0)
            ∧ (10000 < p →
                forecast_latency latencyModels node_id exog_row = 10000)
            ∧ (0 ≤ p → p ≤ 10000 →
                forecast_latency latencyModels node_id exog_row = p)))
    ∧ 0 ≤ forecast_latency latencyModels node_id exog_row
    ∧ forecast_latency latencyModels node_id exog_row ≤ 10000 := by
  refine ⟨fun h => by simp [forecast_latency, h], fun model hm => ⟨?_, ?_⟩, ?_, ?_⟩
  · intro e he; simp [forecast_latency, hm, he]
  · intro p hp
    refine ⟨fun hneg => ?_, fun hbig => ?_, fun h0 h1 => ?_⟩
    · simp [forecast_latency, hm, hp, hneg]
    · simp [forecast_latency, hm, hp, if_neg (by linarith : ¬ p < 0), hbig]
    · simp [forecast_latency, hm, hp, if_neg (by linarith : ¬ p < 0),
        if_neg (by linarith : ¬ 10000 < p)]
  · unfold forecast_latency
    cases h : latencyModels node_id with
    | none => simp only [h]; norm_num
    | some model =>
      simp only [h]
      cases hr : model exog_row with
      | error e => simp only [hr]; norm_num
      | ok p => simp only [hr]; split_ifs <;> linarith
  · unfold forecast_latency
    cases h : latencyModels node_id with
    | none => simp only [h]; norm_num
    | some model =>
      simp only [h]
      cases hr : model exog_row with
      | error e => simp only [hr]; norm_num
      | ok p => simp only [hr]; split_ifs <;> linarith

/-- C6 witness: the forecaster's contract evaluated on concrete nodes. -/
theorem forecast_latency_penalty_and_clamp_witness :
    forecast_latency latModelsEx "missing" () = 9999
    ∧ forecast_latency latModelsEx "raises" () = 9999
    ∧ forecast_latency latModelsEx "neg" () = 0
    ∧ forecast_latency latModelsEx "big" () = 10000
    ∧ forecast_latency latModelsEx "ok" () = 42 :=
  ⟨(forecast_latency_penalty_and_clamp latModelsEx "missing" ()).1 rfl,
   (((forecast_latency_penalty_and_clamp latModelsEx "raises" ()).2.1
      _ rfl).1) () rfl,
   ((((forecast_latency_penalty_and_clamp latModelsEx "neg" ()).2.1
      _ rfl).2) (-5) rfl).1 (by norm_num),
   ((((forecast_latency_penalty_and_clamp latModelsEx "big" ()).2.1
      _ rfl).2) 20000 rfl).2.1 (by norm_num),
   ((((forecast_latency_penalty_and_clamp latModelsEx "ok" ()).2.1
      _ rfl).2) 42 rfl).2.2 (by norm_num) (by norm_num)⟩

/-! ## C7: schema errors propagate, other internal errors do not -/

/-- C7: for every derivation body and input table,
`engineer_features` fails exactly when the table lacks the `timestamp`
column or the `node_id` column (and that error reaches the caller);
when both are present, an internal error in the body is swallowed and
the body's best-effort table is still returned, and a successful body's
table is returned unchanged. -/
theorem engineer_features_schema_error_iff (body : Table → Except Table Table)
    (t : Table) :
    ((engineer_featuresWith body t).isOk = true ↔
      ("timestamp" ∈ t.cols ∧ "node_id" ∈ t.cols))
    ∧ ("timestamp" ∈ t.cols → "node_id" ∈ t.cols →
        ∀ u, body t = .error u → engineer_featuresWith body t = .ok u)
    ∧ ("timestamp" ∈ t.cols → "node_id" ∈ t.cols →
        ∀ u, body t = .ok u → engineer_featuresWith body t = .ok u) := by
  refine ⟨?_, ?_, ?_⟩
  · by_cases h1 : "timestamp" ∈ t.cols <;> by_cases h2 : "node_id" ∈ t.cols <;>
      simp only [engineer_featuresWith, h1, h2, not_true, not_false_iff,
        if_true, if_false, ite_not] <;>
      cases hb : body t <;> simp [Except.isOk, Except.toBool, h1, h2]
  · intro h1 h2 u hu
    simp [engineer_featuresWith, h1, h2, hu]
  · intro h1 h2 u hu
    simp [engineer_featuresWith, h1, h2, hu]

/-! ## C4/C5: optimizer cost formula, arg-min and tie-breaking -/

lemma pyMinAux_cons (best q : String × ℚ) (rest : List (String × ℚ)) :
    pyMinAux best (q :: rest) =
      if q.2 < best.2 then pyMinAux q rest else pyMinAux best rest := rfl

lemma pyMinAux_le_init (best : String × ℚ) (l : List (String × ℚ)) :
    (pyMinAux best l).2 ≤ best.2 := by
  induction l generalizing best with
  | nil => simp [pyMinAux]
  | cons q rest ih =>
    unfold pyMinAux
    by_cases h : q.2 < best.2
    · rw [if_pos h]
      exact le_trans (ih q) (le_of_lt h)
    · rw [if_neg h]
      exact ih best

lemma pyMinAux_split (best : String × ℚ) (l : List (String × ℚ)) :
    ∃ l₁ l₂, best :: l = l₁ ++ pyMinAux best l :: l₂
      ∧ (∀ p ∈ l₁, (pyMinAux best l).2 < p.2)
      ∧ ∀ p ∈ l₂, (pyMinAux best l).2 ≤ p.2 := by
  induction l generalizing best with
  | nil => exact ⟨[], [], rfl, by simp, by simp⟩
  | cons q rest ih =>
    by_cases h : q.2 < best.2
    · obtain ⟨l₁, l₂, heq, h₁, h₂⟩ := ih q
      have hstep : pyMinAux best (q :: rest) = pyMinAux q rest := by
        rw [pyMinAux_cons, if_pos h]
      refine ⟨best :: l₁, l₂, ?_, ?_, by rw [hstep]; exact h₂⟩
      · rw [hstep, List.cons_append, ← heq]
      · intro p hp
        rw [hstep]
        rcases List.mem_cons.mp hp with hpb | hpl
        · rw [hpb]
          exact lt_of_le_of_lt (pyMinAux_le_init q rest) h
        · exact h₁ p hpl
    · obtain ⟨l₁, l₂, heq, h₁, h₂⟩ := ih best
      have hstep : pyMinAux best (q :: rest) = pyMinAux best rest := by
        rw [pyMinAux_cons, if_neg h]
      cases l₁ with
      | nil =>
        simp only [List.nil_append] at heq
        have hbest : best = pyMinAux best rest := (List.cons_eq_cons.mp heq).1
        have hrest : rest = l₂ := (List.cons_eq_cons.mp heq).2
        refine ⟨[], q :: l₂, ?_, by simp, ?_⟩
        · rw [hstep, List.nil_append, ← hbest, ← hrest]
        · intro p hp
          rcases List.mem_cons.mp hp with hpq | hpl
          · rw [hstep, hpq, ← hbest]
            exact le_of_not_lt h
          · rw [hstep]
            exact h₂ p hpl
      | cons x l₁' =>
        have hx : best = x := (List.cons_eq_cons.mp heq).1
        have hrest : rest = l₁' ++ pyMinAux best rest :: l₂ :=
          (List.cons_eq_cons.mp heq).2
        refine ⟨best :: q :: l₁', l₂, ?_, ?_, by rw [hstep]; exact h₂⟩
        · rw [hstep]
          simp only [List.cons_append]
          rw [← hrest]
        · intro p hp
          rw [hstep]
          have hxmem : (pyMinAux best rest).2 < best.2 := by
            have := h₁ x (List.mem_cons_self x l₁')
            rw [← hx] at this
            exact this
          rcases List.mem_cons.mp hp with hpb | hp'
          · rw [hpb]; exact hxmem
          · rcases List.mem_cons.mp hp' with hpq | hpl
            · rw [hpq]
              exact lt_of_lt_of_le hxmem (le_of_not_lt h)
            · exact h₁ p (List.mem_cons_of_mem x hpl)

lemma pyMinByVal_first_argmin (cost : String → ℚ) (nodes : List String)
    (hne : nodes ≠ []) :
    FirstArgmin cost nodes (pyMinByVal (nodes.map (fun n => (n, cost n)))) := by
  cases hn : nodes with
  | nil => exact absurd hn hne
  | cons n₀ ns =>
    have hmin := pyMinAux_split (n₀, cost n₀) (ns.map (fun n => (n, cost n)))
    obtain ⟨l₁, l₂, heq, h₁, h₂⟩ := hmin
    set r := pyMinAux (n₀, cost n₀) (ns.map (fun n => (n, cost n))) with hr
    have heq' : (n₀ :: ns).map (fun n => (n, cost n)) = l₁ ++ r :: l₂ := by
      rw [List.map_cons]; exact heq
    -- split the node list according to the pair-list split
    obtain ⟨s₁, s₂', hs, hmap₁, hmap₂⟩ := List.map_eq_append_iff.mp heq'
    cases s₂' with
    | nil => exact absurd hmap₂ (by simp)
    | cons y s₂ =>
      simp only [List.map_cons, List.cons.injEq] at hmap₂
      obtain ⟨hy, hmap₂'⟩ := hmap₂
      have hr1 : r.1 = y := by rw [← hy]
      have hr2 : r.2 = cost y := by rw [← hy]
      have hpy : pyMinByVal ((n₀ :: ns).map (fun n => (n, cost n))) = y := by
        simp only [List.map_cons, pyMinByVal]
        exact hr1
      rw [hpy]
      refine ⟨s₁, s₂, hs, ?_, ?_⟩
      · intro m hm
        have : (m, cost m) ∈ l₁ := by
          rw [← hmap₁]; exact List.mem_map_of_mem _ hm
        have := h₁ _ this
        rw [hr2] at this
        exact this
      · intro m hm
        have : (m, cost m) ∈ l₂ := by
          rw [← hmap₂']; exact List.mem_map_of_mem _ hm
        have := h₂ _ this
        rw [hr2] at this
        exact this

/-- C4: on a non-empty candidate set, `optimize_routing` assigns every
node the cost `weight_failure * failure_prob(n) + weight_latency *
normalized_latency(n)` (min-max normalization over the candidate set,
written out explicitly), and the recommended node is the arg-min of
this cost with ties broken by the first minimum encountered in scan
order. -/
theorem optimize_routing_cost_and_first_argmin
    (failure_probs latencies : String → ℚ) (nodes : List String)
    (cfg : OptConfig) (hne : nodes ≠ []) :
    ((optimize_routing failure_probs latencies nodes cfg).2 =
      nodes.map (fun n => (n,
        cfg.weight_failure * failure_probs n + cfg.weight_latency *
          (if listMax (nodes.map latencies) - listMin (nodes.map latencies) = 0
           then 0
           else (latencies n - listMin (nodes.map latencies)) /
             (listMax (nodes.map latencies) - listMin (nodes.map latencies))))))
    ∧ FirstArgmin
        (fun n => cfg.weight_failure * failure_probs n
          + cfg.weight_latency * normalizedLatency latencies nodes n)
        nodes (optimize_routing failure_probs latencies nodes cfg).1 := by
  constructor
  · simp [optimize_routing, hne, normalizedLatency]
  · have h := pyMinByVal_first_argmin
      (fun n => cfg.weight_failure * failure_probs n
        + cfg.weight_latency * normalizedLatency latencies nodes n) nodes hne
    have hfst : (optimize_routing failure_probs latencies nodes cfg).1 =
        pyMinByVal (nodes.map (fun n => (n,
          cfg.weight_failure * failure_probs n
            + cfg.weight_latency * normalizedLatency latencies nodes n))) := by
      simp [optimize_routing, hne]
    rw [hfst]
    exact h

/-- C4 witness: the optimizer's cost table and first-arg-min property at
a concrete two-node input. -/
theorem optimize_routing_cost_and_first_argmin_witness :
    ((optimize_routing fpEx latEx ["a", "b"] ⟨7/10, 3/10⟩).2 =
      ["a", "b"].map (fun n => (n,
        (7/10 : ℚ) * fpEx n + (3/10 : ℚ) *
          (if listMax (["a", "b"].map latEx) - listMin (["a", "b"].map latEx) = 0
           then 0
           else (latEx n - listMin (["a", "b"].map latEx)) /
             (listMax (["a", "b"].map latEx) - listMin (["a", "b"].map latEx))))))
    ∧ FirstArgmin
        (fun n => (7/10 : ℚ) * fpEx n
          + (3/10 : ℚ) * normalizedLatency latEx ["a", "b"] n)
        ["a", "b"] (optimize_routing fpEx latEx ["a", "b"] ⟨7/10, 3/10⟩).1 :=
  optimize_routing_cost_and_first_argmin fpEx latEx ["a", "b"] ⟨7/10, 3/10⟩
    (by decide)

lemma foldl_const_min (c : ℚ) (l : List ℚ) (h : ∀ x ∈ l, x = c) :
    l.foldl (fun m x => if x < m then x else m) c = c := by
  induction l with
  | nil => rfl
  | cons a rest ih =>
    have ha : a = c := h a (List.mem_cons_self a rest)
    simp only [List.foldl_cons, ha, lt_irrefl, if_neg (lt_irrefl c)]
    exact ih (fun x hx => h x (List.mem_cons_of_mem a hx))

lemma foldl_const_max (c : ℚ) (l : List ℚ) (h : ∀ x ∈ l, x = c) :
    l.foldl (fun m x => if m < x then x else m) c = c := by
  induction l with
  | nil => rfl
  | cons a rest ih =>
    have ha : a = c := h a (List.mem_cons_self a rest)
    simp only [List.foldl_cons, ha, if_neg (lt_irrefl c)]
    exact ih (fun x hx => h x (List.mem_cons_of_mem a hx))

lemma listMin_const (c : ℚ) (l : List ℚ) (hne : l ≠ [])
    (h : ∀ x ∈ l, x = c) : listMin l = c := by
  cases l with
  | nil => exact absurd rfl hne
  | cons a rest =>
    have ha : a = c := h a (List.mem_cons_self a rest)
    simp only [listMin, ha]
    exact foldl_const_min c rest (fun x hx => h x (List.mem_cons_of_mem a hx))

lemma listMax_const (c : ℚ) (l : List ℚ) (hne : l ≠ [])
    (h : ∀ x ∈ l, x = c) : listMax l = c := by
  cases l with
  | nil => exact absurd rfl hne
  | cons a rest =>
    have ha : a = c := h a (List.mem_cons_self a rest)
    simp only [listMax, ha]
    exact foldl_const_max c rest (fun x hx => h x (List.mem_cons_of_mem a hx))

lemma normalizedLatency_const (latencies : String → ℚ)
    (nodes : List String) (c : ℚ) (hne : nodes ≠ [])
    (hconst : ∀ n ∈ nodes, latencies n = c) (n : String) :
    normalizedLatency latencies nodes n = 0 := by
  have hall : ∀ x ∈ nodes.map latencies, x = c := by
    intro x hx
    obtain ⟨m, hm, hmx⟩ := List.mem_map.mp hx
    rw [← hmx]; exact hconst m hm
  have hmapne : nodes.map latencies ≠ [] := by
    simpa using hne
  unfold normalizedLatency
  rw [listMin_const c _ hmapne hall, listMax_const c _ hmapne hall]
  simp

/-- C5: when every candidate reports the same latency, the optimizer's
normalized latency is 0 for every node (no division by zero occurs: the
guard takes the degenerate branch), every cost score reduces to
`weight_failure * failure_prob(n)`, and the entire result — hence the
recommended node — is independent of the (constant) latency values. -/
theorem optimize_routing_constant_latency
    (failure_probs latencies : String → ℚ) (nodes : List String)
    (cfg : OptConfig) (c : ℚ) (hne : nodes ≠ [])
    (hconst : ∀ n ∈ nodes, latencies n = c) :
    (∀ n ∈ nodes, normalizedLatency latencies nodes n = 0)
    ∧ ((optimize_routing failure_probs latencies nodes cfg).2 =
        nodes.map (fun n => (n, cfg.weight_failure * failure_probs n)))
    ∧ ((optimize_routing failure_probs latencies nodes cfg).1 =
        pyMinByVal (nodes.map (fun n =>
          (n, cfg.weight_failure * failure_probs n))))
    ∧ ∀ (latencies' : String → ℚ) (c' : ℚ),
        (∀ n ∈ nodes, latencies' n = c') →
        optimize_routing failure_probs latencies' nodes cfg =
          optimize_routing failure_probs latencies nodes cfg := by
  have hnorm := normalizedLatency_const latencies nodes c hne hconst
  have hcosts : nodes.map (fun n => (n,
      cfg.weight_failure * failure_probs n
        + cfg.weight_latency * normalizedLatency latencies nodes n)) =
      nodes.map (fun n => (n, cfg.weight_failure * failure_probs n)) := by
    apply List.map_congr_left
    intro n _
    rw [hnorm n]
    ring_nf
  refine ⟨fun n _ => hnorm n, ?_, ?_, ?_⟩
  · simp only [optimize_routing, if_neg hne]
    exact hcosts
  · simp only [optimize_routing, if_neg hne]
    rw [hcosts]
  · intro latencies' c' hconst'
    have hnorm' := normalizedLatency_const latencies' nodes c' hne hconst'
    have hcosts' : nodes.map (fun n => (n,
        cfg.weight_failure * failure_probs n
          + cfg.weight_latency * normalizedLatency latencies' nodes n)) =
        nodes.map (fun n => (n, cfg.weight_failure * failure_probs n)) := by
      apply List.map_congr_left
      intro n _
      rw [hnorm' n]
      ring_nf
    simp only [optimize_routing, if_neg hne]
    rw [hcosts, hcosts']

/-- C5 witness: two nodes with identical latency 80; the ranking is
driven by failure probability alone. -/
theorem optimize_routing_constant_latency_witness :
    (∀ n ∈ ["a", "b"], normalizedLatency latConstEx ["a", "b"] n = 0)
    ∧ ((optimize_routing fpEx latConstEx ["a", "b"] ⟨7/10, 3/10⟩).2 =
        ["a", "b"].map (fun n => (n, (7/10 : ℚ) * fpEx n)))
    ∧ ((optimize_routing fpEx latConstEx ["a", "b"] ⟨7/10, 3/10⟩).1 =
        pyMinByVal (["a", "b"].map (fun n => (n, (7/10 : ℚ) * fpEx n)))) := by
  have h := optimize_routing_constant_latency fpEx latConstEx ["a", "b"]
    ⟨7/10, 3/10⟩ 80 (by decide) (by intro n _; rfl)
  exact ⟨h.1, h.2.1, h.2.2.1⟩

/-! ## C2: the no-candidates sentinel -/

/-- C2: whenever every node of the Live Feature Map fails inference
(in particular for the empty map), `get_recommendation` returns the
sentinel node identifier `"no_nodes_available"`, the explanatory message,
an empty recommendation-details mapping and an empty prediction list;
being a total function, it never raises for this condition. -/
theorem get_recommendation_no_candidates {α β : Type}
    (anomalyStep : α → Except Unit Bool) (failureStep : α → Except Unit ℚ)
    (exogStep : α → Except Unit β)
    (latencyModels : String → Option (β → Except Unit ℚ)) (cfg : OptConfig)
    (engineered_data : List (String × α))
    (hfail : ∀ e ∈ engineered_data,
      runNode anomalyStep failureStep exogStep latencyModels e.1 e.2 = none) :
    get_recommendation anomalyStep failureStep exogStep latencyModels cfg
      engineered_data =
    ⟨"no_nodes_available", "No nodes were available for prediction.",
      none, []⟩ := by
  unfold get_recommendation
  rw [List.filterMap_eq_nil_iff.mpr hfail]
  rfl

/-- C2 witness: the empty Live Feature Map yields the sentinel bundle. -/
theorem get_recommendation_no_candidates_witness :
    get_recommendation alwaysRaiseBool alwaysRaiseRat alwaysRaiseRow
      (fun _ => none) ⟨7/10, 3/10⟩ [] =
    ⟨"no_nodes_available", "No nodes were available for prediction.",
      none, []⟩ :=
  get_recommendation_no_candidates alwaysRaiseBool alwaysRaiseRat
    alwaysRaiseRow (fun _ => none) ⟨7/10, 3/10⟩ [] (by simp)

/-! ## C3: per-node failures are isolated -/

lemma runNode_node_id {α β : Type} (aS : α → Except Unit Bool)
    (fS : α → Except Unit ℚ) (eS : α → Except Unit β)
    (lM : String → Option (β → Except Unit ℚ)) (n : String) (r : α)
    (p : Pred) (h : runNode aS fS eS lM n r = some p) : p.node_id = n := by
  unfold runNode at h
  split at h
  · rw [Option.some_inj] at h
    rw [← h]
  · exact absurd h (by simp)

lemma filterMap_eq_filterMap_filter {α β : Type} (f : α → Option β)
    (p : α → Bool) (l : List α) (h : ∀ e ∈ l, p e = false → f e = none) :
    l.filterMap f = (l.filter p).filterMap f := by
  induction l with
  | nil => rfl
  | cons a l ih =>
    have ih' := ih (fun e he hpe => h e (List.mem_cons_of_mem a he) hpe)
    by_cases hp : p a = true
    · simp [List.filter_cons, hp, List.filterMap_cons, ih']
    · have hpa : p a = false := by simpa using hp
      simp [List.filter_cons, hpa, List.filterMap_cons,
        h a (List.mem_cons_self a l) hpa, ih']

lemma bundleFrom_all_predictions_node_ids (cfg : OptConfig)
    (preds : List Pred) :
    (bundleFrom cfg preds).all_predictions.map (·.node_id) =
      preds.map (·.node_id) := by
  unfold bundleFrom
  by_cases h : preds = []
  · simp [h]
  · simp [h]

lemma bundleFrom_all_predictions_length (cfg : OptConfig)
    (preds : List Pred) :
    (bundleFrom cfg preds).all_predictions.length = preds.length := by
  have := bundleFrom_all_predictions_node_ids cfg preds
  have h1 := congrArg List.length this
  simpa using h1

/-- C3: if every entry of the Live Feature Map for node `b` raises
during inference, then the whole Decision Bundle equals the bundle
computed with `b`'s entries removed (so every other node's
`failure_prob`, `predicted_latency_ms` and `anomaly_detected` are
identical to the run without the failing node), `b` appears nowhere in
`all_predictions`, and for a 3-node map where exactly `b` raises,
`all_predictions` has exactly 2 entries. -/
theorem get_recommendation_isolates_failing_node {α β : Type}
    (aS : α → Except Unit Bool) (fS : α → Except Unit ℚ)
    (eS : α → Except Unit β) (lM : String → Option (β → Except Unit ℚ))
    (cfg : OptConfig) (engineered_data : List (String × α)) (b : String)
    (hb : ∀ e ∈ engineered_data, e.1 = b → runNode aS fS eS lM e.1 e.2 = none) :
    get_recommendation aS fS eS lM cfg engineered_data =
      get_recommendation aS fS eS lM cfg
        (engineered_data.filter (fun e => e.1 != b))
    ∧ (∀ p ∈ (get_recommendation aS fS eS lM cfg
        engineered_data).all_predictions, p.node_id ≠ b)
    ∧ ∀ (n₁ n₃ : String) (r₁ r₂ r₃ : α) (p₁ p₃ : Pred),
        runNode aS fS eS lM n₁ r₁ = some p₁ →
        runNode aS fS eS lM b r₂ = none →
        runNode aS fS eS lM n₃ r₃ = some p₃ →
        (get_recommendation aS fS eS lM cfg
          [(n₁, r₁), (b, r₂), (n₃, r₃)]).all_predictions.length = 2 := by
  refine ⟨?_, ?_, ?_⟩
  · unfold get_recommendation
    rw [filterMap_eq_filterMap_filter _ (fun e => e.1 != b) _ ?_]
    intro e he hpe
    exact hb e he (by simpa using hpe)
  · intro p hp
    have hmap := bundleFrom_all_predictions_node_ids cfg
      (engineered_data.filterMap (fun e => runNode aS fS eS lM e.1 e.2))
    have hpmem : p.node_id ∈ (get_recommendation aS fS eS lM cfg
        engineered_data).all_predictions.map (·.node_id) :=
      List.mem_map_of_mem _ hp
    rw [get_recommendation, hmap] at hpmem
    obtain ⟨q, hq, hqid⟩ := List.mem_map.mp hpmem
    obtain ⟨e, he, hre⟩ := List.mem_filterMap.mp hq
    have hqn := runNode_node_id aS fS eS lM e.1 e.2 q hre
    intro hcontra
    have : e.1 = b := by rw [← hqn, hqid, hcontra]
    rw [hb e he this] at hre
    exact Option.noConfusion hre
  · intro n₁ n₃ r₁ r₂ r₃ p₁ p₃ h₁ h₂ h₃
    unfold get_recommendation
    rw [bundleFrom_all_predictions_length]
    simp [List.filterMap_cons, h₁, h₂, h₃]

/-- C3 witness: in a 3-node map where node "bad" raises, the bundle
equals the bundle for the 2 healthy nodes, "bad" is absent, and
`all_predictions` has exactly 2 entries. -/
theorem get_recommendation_isolates_failing_node_witness :
    (get_recommendation (fun _ => .ok false) (fun _ => .ok (1/2)) exogStepEx
        (fun _ => none) ⟨7/10, 3/10⟩
        [("n1", false), ("bad", true), ("n3", false)] =
      get_recommendation (fun _ => .ok false) (fun _ => .ok (1/2)) exogStepEx
        (fun _ => none) ⟨7/10, 3/10⟩
        ([("n1", false), ("bad", true), ("n3", false)].filter
          (fun e => e.1 != "bad")))
    ∧ (get_recommendation (fun _ => .ok false) (fun _ => .ok (1/2)) exogStepEx
        (fun _ => none) ⟨7/10, 3/10⟩
        [("n1", false), ("bad", true), ("n3", false)]).all_predictions.length
      = 2 := by
  have h := get_recommendation_isolates_failing_node
    (fun _ => .ok false) (fun _ => .ok (1/2)) exogStepEx (fun _ => none)
    ⟨7/10, 3/10⟩ [("n1", false), ("bad", true), ("n3", false)] "bad"
    (by intro e he hb; fin_cases he <;> simp_all [runNode, exogStepEx])
  exact ⟨h.1, h.2.2 "n1" "n3" false true false
    ⟨"n1", 1/2, 9999, false⟩ ⟨"n3", 1/2, 9999, false⟩
    (by simp [runNode, exogStepEx, forecast_latency])
    (by simp [runNode, exogStepEx])
    (by simp [runNode, exogStepEx, forecast_latency])⟩

/-- C7 witness: a body that raises after degrading the table does not
abort the pipeline (the degraded table is returned), while a missing
required column is a surfaced error. -/
theorem engineer_features_schema_error_iff_witness :
    engineer_featuresWith (fun u => .error u) schemaOkT = .ok schemaOkT
    ∧ ¬ ((engineer_featuresWith (fun u => .error u) schemaBadT).isOk = true) :=
  ⟨(engineer_features_schema_error_iff (fun u => .error u) schemaOkT).2.1
      (by decide) (by decide) schemaOkT rfl,
   fun h =>
    absurd (((engineer_features_schema_error_iff (fun u => .error u)
      schemaBadT).1).mp h).2 (by decide)⟩

/-! ## Positional list lemmas -/

lemma getD_set_self {α : Type} : ∀ (l : List α) (i : ℕ) (a d : α),
    i < l.length → (l.set i a).getD i d = a := by
  intro l
  induction l with
  | nil => intro i a d h; simp at h
  | cons x xs ih =>
    intro i a d h
    cases i with
    | zero => rfl
    | succ j =>
      simp only [List.set_cons_succ, List.getD_cons_succ]
      exact ih j a d (by simpa using h)

lemma getD_set_ne {α : Type} : ∀ (l : List α) (i j : ℕ) (a d : α),
    i ≠ j → (l.set i a).getD j d = l.getD j d := by
  intro l
  induction l with
  | nil => intro i j a d _; simp [List.set]
  | cons x xs ih =>
    intro i j a d hne
    cases i with
    | zero =>
      cases j with
      | zero => exact absurd rfl hne
      | succ j' => rfl
    | succ i' =>
      cases j with
      | zero => rfl
      | succ j' =>
        simp only [List.set_cons_succ, List.getD_cons_succ]
        exact ih i' j' a d (fun h => hne (by rw [h]))

lemma getD_append_left {α : Type} : ∀ (l l' : List α) (j : ℕ) (d : α),
    j < l.length → (l ++ l').getD j d = l.getD j d := by
  intro l
  induction l with
  | nil => intro l' j d h; simp at h
  | cons x xs ih =>
    intro l' j d h
    cases j with
    | zero => rfl
    | succ j' =>
      simp only [List.cons_append, List.getD_cons_succ]
      exact ih l' j' d (by simpa using h)

lemma getD_append_self {α : Type} : ∀ (l : List α) (l' : List α) (j : ℕ)
    (d : α), j = l.length → (l ++ l').getD j d = l'.getD 0 d := by
  intro l
  induction l with
  | nil => intro l' j d h; subst h; rfl
  | cons x xs ih =>
    intro l' j d h
    subst h
    simp only [List.cons_append, List.length_cons, List.getD_cons_succ]
    exact ih l' xs.length d rfl

lemma getD_zipWith {α β γ : Type} (f : α → β → γ) :
    ∀ (l₁ : List α) (l₂ : List β) (i : ℕ) (d₁ : α) (d₂ : β) (d₃ : γ),
    i < l₁.length → i < l₂.length →
    (List.zipWith f l₁ l₂).getD i d₃ = f (l₁.getD i d₁) (l₂.getD i d₂) := by
  intro l₁
  induction l₁ with
  | nil => intro l₂ i d₁ d₂ d₃ h₁ _; simp at h₁
  | cons x xs ih =>
    intro l₂ i d₁ d₂ d₃ h₁ h₂
    cases l₂ with
    | nil => simp at h₂
    | cons y ys =>
      cases i with
      | zero => rfl
      | succ j =>
        simp only [List.zipWith_cons_cons, List.getD_cons_succ]
        exact ih ys j d₁ d₂ d₃ (by simpa using h₁) (by simpa using h₂)

lemma zipWith_congr_mem {α β γ : Type} (f g : α → β → γ) :
    ∀ (l₁ : List α) (l₂ : List β),
    (∀ a ∈ l₁, ∀ b ∈ l₂, f a b = g a b) →
    List.zipWith f l₁ l₂ = List.zipWith g l₁ l₂ := by
  intro l₁
  induction l₁ with
  | nil => intro l₂ _; rfl
  | cons x xs ih =>
    intro l₂ h
    cases l₂ with
    | nil => rfl
    | cons y ys =>
      simp only [List.zipWith_cons_cons]
      rw [h x (by simp) y (by simp),
        ih ys (fun a ha b hb => h a (by simp [ha]) b (by simp [hb]))]

lemma zipWith_const_snd {α β : Type} :
    ∀ (l₁ : List α) (l₂ : List β), l₁.length = l₂.length →
    List.zipWith (fun _ b => b) l₁ l₂ = l₂ := by
  intro l₁
  induction l₁ with
  | nil =>
    intro l₂ h
    cases l₂ with
    | nil => rfl
    | cons y ys => simp at h
  | cons x xs ih =>
    intro l₂ h
    cases l₂ with
    | nil => simp at h
    | cons y ys =>
      simp only [List.zipWith_cons_cons]
      rw [ih ys (by simpa using h)]

/-! ## colIdx lemmas -/

lemma colIdx_spec : ∀ (cols : List String) (c : String) (i : ℕ),
    colIdx cols c = some i → i < cols.length ∧ cols.getD i "" = c := by
  intro cols
  induction cols with
  | nil => intro c i h; simp [colIdx] at h
  | cons x xs ih =>
    intro c i h
    rw [colIdx] at h
    by_cases hx : x == c
    · rw [if_pos hx] at h
      rw [Option.some_inj] at h
      subst h
      exact ⟨by simp, by simpa using (eq_of_beq hx)⟩
    · rw [if_neg hx] at h
      cases hfi : colIdx xs c with
      | none => rw [hfi] at h; simp at h
      | some j =>
        rw [hfi] at h
        simp at h
        obtain ⟨hj, hv⟩ := ih c j hfi
        subst h
        exact ⟨by simpa using hj, by simpa using hv⟩

lemma colIdx_eq_none_iff : ∀ (cols : List String) (c : String),
    colIdx cols c = none ↔ c ∉ cols := by
  intro cols
  induction cols with
  | nil => intro c; exact ⟨fun _ => by simp, fun _ => rfl⟩
  | cons x xs ih =>
    intro c
    rw [colIdx]
    by_cases hx : x == c
    · simp [hx, eq_of_beq hx]
    · have hxc : ¬ x = c := fun h => hx (by simp [h])
      rw [if_neg hx]
      constructor
      · intro hm hmem
        have hnone : colIdx xs c = none := by
          cases hcc : colIdx xs c with
          | none => rfl
          | some j => rw [hcc] at hm; simp at hm
        rcases List.mem_cons.mp hmem with h1 | h2
        · exact hxc h1.symm
        · exact (ih c).mp hnone h2
      · intro hmem
        have hnm : c ∉ xs := fun h2 => hmem (List.mem_cons_of_mem x h2)
        rw [(ih c).mpr hnm]
        rfl

lemma colIdx_isSome_of_mem {cols : List String} {c : String}
    (h : c ∈ cols) : ∃ i, colIdx cols c = some i := by
  cases hc : colIdx cols c with
  | none => exact absurd ((colIdx_eq_none_iff cols c).mp hc) (by simp [h])
  | some i => exact ⟨i, rfl⟩

lemma colIdx_append_left : ∀ (cols : List String) {c : String}
    (ext : List String), c ∈ cols →
    colIdx (cols ++ ext) c = colIdx cols c := by
  intro cols
  induction cols with
  | nil => intro c ext h; simp at h
  | cons x xs ih =>
    intro c ext h
    simp only [List.cons_append, colIdx, List.append_eq]
    by_cases hx : x == c
    · rw [if_pos hx, if_pos hx]
    · rw [if_neg hx, if_neg hx]
      have hc : c ∈ xs := by
        rcases List.mem_cons.mp h with h1 | h2
        · exact absurd (by simp [h1]) hx
        · exact h2
      rw [ih ext hc]

lemma colIdx_append_self : ∀ (cols : List String) {c : String}, c ∉ cols →
    colIdx (cols ++ [c]) c = some cols.length := by
  intro cols
  induction cols with
  | nil => intro c _; simp [colIdx]
  | cons x xs ih =>
    intro c h
    have hx : ¬ (x == c) = true := by
      intro hx
      exact h (by simp [eq_of_beq hx])
    simp only [List.cons_append, colIdx, List.append_eq, if_neg hx]
    rw [ih (fun hc => h (List.mem_cons_of_mem x hc))]
    simp

/-! ## setCol / colCells lemmas -/

lemma mem_zipWith {α β γ : Type} (f : α → β → γ) :
    ∀ (l₁ : List α) (l₂ : List β) (c : γ), c ∈ List.zipWith f l₁ l₂ →
    ∃ a b, a ∈ l₁ ∧ b ∈ l₂ ∧ c = f a b := by
  intro l₁
  induction l₁ with
  | nil => intro l₂ c h; simp at h
  | cons x xs ih =>
    intro l₂ c h
    cases l₂ with
    | nil => simp at h
    | cons y ys =>
      rw [List.zipWith_cons_cons] at h
      rcases List.mem_cons.mp h with h1 | h2
      · exact ⟨x, y, by simp, by simp, h1⟩
      · obtain ⟨a, b, ha, hb, hab⟩ := ih ys c h2
        exact ⟨a, b, by simp [ha], by simp [hb], hab⟩

lemma zipWith_fst_map {α β γ : Type} (g : α → γ) :
    ∀ (l₁ : List α) (l₂ : List β), l₁.length = l₂.length →
    List.zipWith (fun a (_ : β) => g a) l₁ l₂ = l₁.map g := by
  intro l₁
  induction l₁ with
  | nil => intro l₂ _; rfl
  | cons x xs ih =>
    intro l₂ h
    cases l₂ with
    | nil => simp at h
    | cons y ys =>
      simp only [List.zipWith_cons_cons, List.map_cons]
      rw [ih ys (by simpa using h)]

lemma colCells_length (t : Table) (c : String) :
    (colCells t c).length = t.rows.length := by
  simp [colCells]

lemma setCol_cols_of_mem (t : Table) (c : String) (vals : List Cell)
    (h : c ∈ t.cols) : (setCol t c vals).cols = t.cols := by
  obtain ⟨i, hi⟩ := colIdx_isSome_of_mem h
  rw [setCol, hi]

lemma setCol_cols_of_not_mem (t : Table) (c : String) (vals : List Cell)
    (h : c ∉ t.cols) : (setCol t c vals).cols = t.cols ++ [c] := by
  rw [setCol, (colIdx_eq_none_iff _ _).mpr h]

lemma setCol_rows_length (t : Table) (c : String) (vals : List Cell)
    (hlen : vals.length = t.rows.length) :
    (setCol t c vals).rows.length = t.rows.length := by
  rw [setCol]
  cases colIdx t.cols c <;> simp [List.length_zipWith, hlen]

lemma setCol_WF (t : Table) (c : String) (vals : List Cell) (hwf : t.WF)
    (hlen : vals.length = t.rows.length) : (setCol t c vals).WF := by
  obtain ⟨hnd, hlen'⟩ := hwf
  cases hci : colIdx t.cols c with
  | some i =>
    rw [setCol, hci]
    refine ⟨hnd, ?_⟩
    intro r hr
    obtain ⟨a, b, ha, _, hab⟩ := mem_zipWith _ _ _ _ hr
    rw [hab]
    simp [hlen' a ha]
  | none =>
    rw [setCol, hci]
    refine ⟨?_, ?_⟩
    · simp only [List.nodup_append]
      exact ⟨hnd, List.nodup_singleton c, by
        simpa using (colIdx_eq_none_iff _ _).mp hci⟩
    · intro r hr
      obtain ⟨a, b, ha, _, hab⟩ := mem_zipWith _ _ _ _ hr
      rw [hab]
      simp [hlen' a ha]

lemma colCells_setCol_self (t : Table) (c : String) (vals : List Cell)
    (hwf : t.WF) (hlen : vals.length = t.rows.length) :
    colCells (setCol t c vals) c = vals := by
  obtain ⟨hnd, hlenr⟩ := hwf
  cases hci : colIdx t.cols c with
  | some i =>
    have hi := colIdx_spec t.cols c i hci
    rw [colCells, setCol, hci]
    simp only [List.map_zipWith]
    have : List.zipWith (fun r v => getCell t.cols (r.set i v) c) t.rows vals
        = List.zipWith (fun _ v => v) t.rows vals := by
      apply zipWith_congr_mem
      intro a ha b _
      rw [getCell, hci]
      exact getD_set_self a i b .null (by rw [hlenr a ha]; exact hi.1)
    rw [this, zipWith_const_snd t.rows vals hlen.symm]
  | none =>
    have hmem := (colIdx_eq_none_iff _ _).mp hci
    rw [colCells, setCol, hci]
    simp only [List.map_zipWith]
    have : List.zipWith (fun r v => getCell (t.cols ++ [c]) (r ++ [v]) c)
        t.rows vals = List.zipWith (fun _ v => v) t.rows vals := by
      apply zipWith_congr_mem
      intro a ha b _
      rw [getCell, colIdx_append_self t.cols hmem]
      exact getD_append_self a [b] t.cols.length .null (hlenr a ha).symm
    rw [this, zipWith_const_snd t.rows vals hlen.symm]

lemma colCells_setCol_ne (t : Table) (c c' : String) (vals : List Cell)
    (hwf : t.WF) (hlen : vals.length = t.rows.length) (hne : c' ≠ c) :
    colCells (setCol t c vals) c' = colCells t c' := by
  obtain ⟨hnd, hlenr⟩ := hwf
  cases hci : colIdx t.cols c with
  | some i =>
    have hi := colIdx_spec t.cols c i hci
    rw [colCells, colCells, setCol, hci]
    simp only [List.map_zipWith]
    cases hci' : colIdx t.cols c' with
    | some j =>
      have hj := colIdx_spec t.cols c' j hci'
      have hij : i ≠ j := by
        intro hcontra
        apply hne
        rw [← hj.2, ← hcontra, hi.2]
      have : List.zipWith (fun r v => getCell t.cols (r.set i v) c') t.rows
          vals = List.zipWith (fun r _ => getCell t.cols r c') t.rows vals := by
        apply zipWith_congr_mem
        intro a _ b _
        rw [getCell, getCell, hci']
        exact getD_set_ne a i j b .null hij
      rw [this, zipWith_fst_map _ t.rows vals hlen.symm]
    | none =>
      have : List.zipWith (fun r v => getCell t.cols (r.set i v) c') t.rows
          vals = List.zipWith (fun _ _ => Cell.null) t.rows vals := by
        apply zipWith_congr_mem
        intro a _ b _
        rw [getCell, hci']
      rw [this, zipWith_fst_map (fun _ => Cell.null) t.rows vals hlen.symm]
      apply List.map_congr_left
      intro a _
      rw [getCell, hci']
  | none =>
    have hmem := (colIdx_eq_none_iff _ _).mp hci
    rw [colCells, colCells, setCol, hci]
    simp only [List.map_zipWith]
    by_cases hc' : c' ∈ t.cols
    · obtain ⟨j, hj⟩ := colIdx_isSome_of_mem hc'
      have hjs := colIdx_spec t.cols c' j hj
      have : List.zipWith (fun r v => getCell (t.cols ++ [c]) (r ++ [v]) c')
          t.rows vals
          = List.zipWith (fun r _ => getCell t.cols r c') t.rows vals := by
        apply zipWith_congr_mem
        intro a ha b _
        rw [getCell, getCell, colIdx_append_left t.cols [c] hc', hj]
        exact getD_append_left a [b] j .null (by rw [hlenr a ha]; exact hjs.1)
      rw [this, zipWith_fst_map _ t.rows vals hlen.symm]
    · have hout : c' ∉ t.cols ++ [c] := by
        simp only [List.mem_append, List.mem_singleton]
        rintro (h1 | h2)
        · exact hc' h1
        · exact hne h2
      have : List.zipWith (fun r v => getCell (t.cols ++ [c]) (r ++ [v]) c')
          t.rows vals = List.zipWith (fun _ _ => Cell.null) t.rows vals := by
        apply zipWith_congr_mem
        intro a _ b _
        rw [getCell, (colIdx_eq_none_iff _ _).mpr hout]
      rw [this, zipWith_fst_map (fun _ => Cell.null) t.rows vals hlen.symm]
      apply List.map_congr_left
      intro a _
      rw [getCell, (colIdx_eq_none_iff _ _).mpr hc']

/-! ## Stage preservation lemmas (well-formedness, column extension) -/

lemma ColsExt.rfl' (t : Table) : ColsExt t t := ⟨[], by simp⟩

lemma ColsExt.trans' {t u v : Table} (h1 : ColsExt t u) (h2 : ColsExt u v) :
    ColsExt t v := by
  obtain ⟨e1, he1⟩ := h1
  obtain ⟨e2, he2⟩ := h2
  exact ⟨e1 ++ e2, by rw [he2, he1, List.append_assoc]⟩

lemma ColsExt.mem {t u : Table} (h : ColsExt t u) {c : String}
    (hc : c ∈ t.cols) : c ∈ u.cols := by
  obtain ⟨e, he⟩ := h
  rw [he]
  exact List.mem_append_left e hc

lemma setCol_colsExt (t : Table) (c : String) (vals : List Cell) :
    ColsExt t (setCol t c vals) := by
  by_cases h : c ∈ t.cols
  · exact ⟨[], by rw [setCol_cols_of_mem t c vals h, List.append_nil]⟩
  · exact ⟨[c], setCol_cols_of_not_mem t c vals h⟩

lemma mwgAux_length (key : Row → String) (h : List Cell → ℕ → Cell)
    (proj : Row → Cell) (full : List Row) :
    ∀ (rest pre : List Row),
    (mwgAux key h proj full pre rest).length = rest.length := by
  intro rest
  induction rest with
  | nil => intro pre; rfl
  | cons r rs ih => intro pre; simp [mwgAux, ih]

lemma mapWithGroup_length (key : Row → String) (h : List Cell → ℕ → Cell)
    (proj : Row → Cell) (rows : List Row) :
    (mapWithGroup key h proj rows).length = rows.length :=
  mwgAux_length key h proj rows rows []

lemma mem_insertSortedBy {α : Type} (le : α → α → Bool) (a : α) :
    ∀ (l : List α) (b : α), b ∈ insertSortedBy le a l ↔ b = a ∨ b ∈ l := by
  intro l
  induction l with
  | nil => intro b; simp [insertSortedBy]
  | cons x xs ih =>
    intro b
    rw [insertSortedBy]
    by_cases h : le a x
    · simp [h]
    · simp only [if_neg h, List.mem_cons, ih b]
      tauto

lemma mem_sortedBy {α : Type} (le : α → α → Bool) :
    ∀ (l : List α) (b : α), b ∈ sortedBy le l ↔ b ∈ l := by
  intro l
  induction l with
  | nil => intro b; rfl
  | cons x xs ih =>
    intro b
    rw [sortedBy, mem_insertSortedBy, ih]
    simp

lemma sortStage_WF (t : Table) (hwf : t.WF) : (sortStage t).WF := by
  obtain ⟨hnd, hlen⟩ := hwf
  exact ⟨hnd, fun r hr => hlen r ((mem_sortedBy _ _ _).mp hr)⟩

lemma sortStage_colsExt (t : Table) : ColsExt t (sortStage t) :=
  ⟨[], by simp [sortStage]⟩

lemma astypeNodeId_WF (t : Table) (hwf : t.WF) : (astypeNodeId t).WF :=
  setCol_WF t _ _ hwf (by simp)

lemma astypeNodeId_colsExt (t : Table) : ColsExt t (astypeNodeId t) :=
  setCol_colsExt t _ _

lemma mapColCells_WF (t : Table) (c : String) (f : Cell → Cell)
    (hwf : t.WF) : (mapColCells t c f).WF :=
  setCol_WF t _ _ hwf (by simp)

lemma applyFeatureDefault_WF (t : Table) (fd : String × ℚ) (hwf : t.WF) :
    (applyFeatureDefault t fd).WF := by
  rw [applyFeatureDefault]
  by_cases h : fd.1 ∈ t.cols
  · rw [if_pos h]; exact mapColCells_WF t _ _ hwf
  · rw [if_neg h]; exact setCol_WF t _ _ hwf (by simp)

lemma applyFeatureDefault_colsExt (t : Table) (fd : String × ℚ) :
    ColsExt t (applyFeatureDefault t fd) := by
  rw [applyFeatureDefault]
  by_cases h : fd.1 ∈ t.cols
  · rw [if_pos h]; exact setCol_colsExt t _ _
  · rw [if_neg h]; exact setCol_colsExt t _ _

lemma applyInteraction_WF (t : Table) (pair : List String) (hwf : t.WF) :
    (applyInteraction t pair).WF := by
  rcases pair with _ | ⟨a, _ | ⟨b, _ | ⟨c, rest⟩⟩⟩
  · exact hwf
  · exact hwf
  · simp only [applyInteraction]
    by_cases h : a ∈ t.cols ∧ b ∈ t.cols
    · rw [if_pos h]; exact setCol_WF t _ _ hwf (by simp)
    · rw [if_neg h]; exact hwf
  · exact hwf

lemma applyInteraction_colsExt (t : Table) (pair : List String) :
    ColsExt t (applyInteraction t pair) := by
  rcases pair with _ | ⟨a, _ | ⟨b, _ | ⟨c, rest⟩⟩⟩
  · exact ColsExt.rfl' t
  · exact ColsExt.rfl' t
  · simp only [applyInteraction]
    by_cases h : a ∈ t.cols ∧ b ∈ t.cols
    · rw [if_pos h]; exact setCol_colsExt t _ _
    · rw [if_neg h]; exact ColsExt.rfl' t
  · exact ColsExt.rfl' t

lemma applyThreshold_WF (t : Table) (th : String × ℚ) (hwf : t.WF) :
    (applyThreshold t th).WF := by
  rw [applyThreshold]
  by_cases h : th.1 ∈ t.cols
  · rw [if_pos h]; exact setCol_WF t _ _ hwf (by simp)
  · rw [if_neg h]; exact hwf

lemma applyThreshold_colsExt (t : Table) (th : String × ℚ) :
    ColsExt t (applyThreshold t th) := by
  rw [applyThreshold]
  by_cases h : th.1 ∈ t.cols
  · rw [if_pos h]; exact setCol_colsExt t _ _
  · rw [if_neg h]; exact ColsExt.rfl' t

lemma addGroupCol_WF (t : Table) (name metric : String)
    (h : List Cell → ℕ → Cell) (hwf : t.WF) :
    (addGroupCol t name metric h).WF :=
  setCol_WF t _ _ hwf (mapWithGroup_length _ _ _ _)

lemma addGroupCol_colsExt (t : Table) (name metric : String)
    (h : List Cell → ℕ → Cell) : ColsExt t (addGroupCol t name metric h) :=
  setCol_colsExt t _ _

lemma foldl_WF_colsExt {β : Type} (step : Table → β → Table)
    (hstep : ∀ u b, u.WF → (step u b).WF ∧ ColsExt u (step u b)) :
    ∀ (l : List β) (t : Table), t.WF →
    (l.foldl step t).WF ∧ ColsExt t (l.foldl step t) := by
  intro l
  induction l with
  | nil => intro t hwf; exact ⟨hwf, ColsExt.rfl' t⟩
  | cons b bs ih =>
    intro t hwf
    obtain ⟨h1, h2⟩ := hstep t b hwf
    obtain ⟨h3, h4⟩ := ih (step t b) h1
    exact ⟨h3, ColsExt.trans' h2 h4⟩

lemma applyFeatureDefaults_WF_colsExt (cfg : FEConfig) (t : Table)
    (hwf : t.WF) : (applyFeatureDefaults cfg t).WF
      ∧ ColsExt t (applyFeatureDefaults cfg t) :=
  foldl_WF_colsExt applyFeatureDefault
    (fun u b hu => ⟨applyFeatureDefault_WF u b hu, applyFeatureDefault_colsExt u b⟩)
    cfg.feature_defaults t hwf

lemma engineer_interaction_features_WF_colsExt (cfg : FEConfig) (t : Table)
    (hwf : t.WF) : (engineer_interaction_features t cfg).WF
      ∧ ColsExt t (engineer_interaction_features t cfg) :=
  foldl_WF_colsExt applyInteraction
    (fun u b hu => ⟨applyInteraction_WF u b hu, applyInteraction_colsExt u b⟩)
    cfg.interaction_pairs t hwf

lemma engineer_threshold_features_WF_colsExt (cfg : FEConfig) (t : Table)
    (hwf : t.WF) : (engineer_threshold_features t cfg).WF
      ∧ ColsExt t (engineer_threshold_features t cfg) :=
  foldl_WF_colsExt applyThreshold
    (fun u b hu => ⟨applyThreshold_WF u b hu, applyThreshold_colsExt u b⟩)
    cfg.thresholds t hwf

lemma processMetric_WF_colsExt (cfg : FEConfig) (t : Table) (metric : String)
    (hwf : t.WF) : (processMetric cfg t metric).WF
      ∧ ColsExt t (processMetric cfg t metric) := by
  rw [processMetric]
  by_cases h : metric ∈ t.cols
  · rw [if_pos h]
    have h1 : (addGroupCol t (trendName metric) metric diffAt).WF :=
      addGroupCol_WF _ _ _ _ hwf
    have h2 : ColsExt t (addGroupCol t (trendName metric) metric diffAt) :=
      addGroupCol_colsExt _ _ _ _
    have hro := foldl_WF_colsExt
      (fun u w => addGroupCol
        (addGroupCol u (rollingMeanName metric w) metric (rollMeanAt w))
        (rollingStdName metric w) metric (rollStdAt w))
      (fun u w hu =>
        ⟨addGroupCol_WF _ _ _ _ (addGroupCol_WF _ _ _ _ hu),
         ColsExt.trans' (addGroupCol_colsExt _ _ _ _)
           (addGroupCol_colsExt _ _ _ _)⟩)
      cfg.rolling_windows _ h1
    have hla := foldl_WF_colsExt
      (fun u k => addGroupCol u (lagName metric k) metric (lagAt k))
      (fun u k hu => ⟨addGroupCol_WF _ _ _ _ hu, addGroupCol_colsExt _ _ _ _⟩)
      cfg.lag_periods _ hro.1
    exact ⟨hla.1, ColsExt.trans' h2 (ColsExt.trans' hro.2 hla.2)⟩
  · rw [if_neg h]
    exact ⟨hwf, ColsExt.rfl' t⟩

lemma deriveStage_WF_colsExt (cfg : FEConfig) (t : Table) (hwf : t.WF) :
    (deriveStage cfg t).WF ∧ ColsExt t (deriveStage cfg t) :=
  foldl_WF_colsExt (processMetric cfg)
    (fun u m hu => processMetric_WF_colsExt cfg u m hu)
    (allMetricsToProcess cfg) t hwf

lemma fillnaStage_cols (t : Table) : (fillnaStage t).cols = t.cols := rfl

lemma fillnaStage_WF (t : Table) (hwf : t.WF) : (fillnaStage t).WF := by
  obtain ⟨hnd, hlen⟩ := hwf
  refine ⟨hnd, ?_⟩
  intro r hr
  obtain ⟨a, ha, hra⟩ := List.mem_map.mp hr
  rw [← hra, List.length_zipWith, hlen a ha, fillnaStage_cols]
  simp

lemma engineerDerived_WF_colsExt (cfg : FEConfig) (t : Table) (hwf : t.WF) :
    (engineerDerived cfg t).WF ∧ ColsExt t (engineerDerived cfg t) := by
  rw [engineerDerived]
  have h0 : (astypeNodeId t).WF := astypeNodeId_WF t hwf
  have h0e := astypeNodeId_colsExt t
  have h1 : (sortStage (astypeNodeId t)).WF := sortStage_WF _ h0
  have h1e := sortStage_colsExt (astypeNodeId t)
  have h2 := applyFeatureDefaults_WF_colsExt cfg _ h1
  have h3 := engineer_interaction_features_WF_colsExt cfg _ h2.1
  have h4 := engineer_threshold_features_WF_colsExt cfg _ h3.1
  have h5 := deriveStage_WF_colsExt cfg _ h4.1
  exact ⟨h5.1, ColsExt.trans' h0e (ColsExt.trans' h1e (ColsExt.trans' h2.2
    (ColsExt.trans' h3.2 (ColsExt.trans' h4.2 h5.2))))⟩

/-! ## C8: null-fill semantics and metadata protection -/

lemma fillCell_ne_null (d : ℚ) (x : Cell) : fillCell d x ≠ .null := by
  unfold fillCell
  split_ifs with h
  · simp
  · exact h

lemma colCells_fillnaStage_metadata (t : Table) (hwf : t.WF) (c : String)
    (hc : c ∈ metadataCols) :
    colCells (fillnaStage t) c = colCells t c := by
  obtain ⟨hnd, hlen⟩ := hwf
  rw [colCells, colCells, fillnaStage]
  simp only [List.map_map]
  apply List.map_congr_left
  intro a ha
  simp only [Function.comp]
  cases hci : colIdx t.cols c with
  | none => rw [getCell, getCell, hci]
  | some i =>
    have hi := colIdx_spec t.cols c i hci
    rw [getCell, getCell, hci]
    dsimp only
    rw [getD_zipWith
      (fun cname cell => if cname ∈ metadataCols then cell else fillCell 0 cell)
      t.cols a i "" Cell.null Cell.null hi.1 (by rw [hlen a ha]; exact hi.1)]
    rw [hi.2, if_pos hc]

lemma colCells_fillnaStage_not_metadata (t : Table) (hwf : t.WF) (c : String)
    (hcm : c ∉ metadataCols) (hcc : c ∈ t.cols) :
    colCells (fillnaStage t) c = (colCells t c).map (fillCell 0) := by
  obtain ⟨hnd, hlen⟩ := hwf
  rw [colCells, colCells, fillnaStage]
  simp only [List.map_map]
  apply List.map_congr_left
  intro a ha
  simp only [Function.comp]
  obtain ⟨i, hci⟩ := colIdx_isSome_of_mem hcc
  have hi := colIdx_spec t.cols c i hci
  rw [getCell, getCell, hci]
  dsimp only
  rw [getD_zipWith
    (fun cname cell => if cname ∈ metadataCols then cell else fillCell 0 cell)
    t.cols a i "" Cell.null Cell.null hi.1 (by rw [hlen a ha]; exact hi.1)]
  rw [hi.2, if_neg hcm]

lemma engineer_features_ok_iff (cfg : FEConfig) (t u : Table) :
    engineer_features cfg t = .ok u ↔
      ("timestamp" ∈ t.cols ∧ "node_id" ∈ t.cols
        ∧ u = engineerBody cfg t) := by
  rw [engineer_features, engineer_featuresWith]
  by_cases h1 : "timestamp" ∈ t.cols
  · by_cases h2 : "node_id" ∈ t.cols
    · simp [h1, h2, eq_comm]
    · simp [h1, h2]
  · simp [h1]

/-- C8: for every well-formed input table the pipeline accepts, in the
returned table every column outside the three identity/metadata columns
equals the pre-fill derived column with each null replaced by the
defined default 0 (so no derived cell that was undefined at a series
start remains null — none is null at all); the final null-fill leaves
the `timestamp`, `node_id` and `client_type` columns untouched; and
every `node_id` cell of the output is of string type. -/
theorem engineer_features_fill_and_metadata (cfg : FEConfig) (t u : Table)
    (hwf : t.WF) (hok : engineer_features cfg t = .ok u) :
    (∀ c ∈ u.cols, c ∉ metadataCols →
      colCells u c = (colCells (engineerDerived cfg t) c).map (fillCell 0))
    ∧ (∀ c ∈ u.cols, c ∉ metadataCols →
        ∀ cell ∈ colCells u c, cell ≠ Cell.null)
    ∧ (∀ c ∈ metadataCols,
        colCells (fillnaStage (engineerDerived cfg t)) c =
          colCells (engineerDerived cfg t) c)
    ∧ (∀ cell ∈ colCells u "node_id", cell.isStr = true) := by
  obtain ⟨hts, hnid, hu⟩ := (engineer_features_ok_iff cfg t u).mp hok
  subst hu
  have hXwfe := engineerDerived_WF_colsExt cfg t hwf
  have hXwf := hXwfe.1
  have hnidX : "node_id" ∈ (engineerDerived cfg t).cols := hXwfe.2.mem hnid
  have hFwf : (fillnaStage (engineerDerived cfg t)).WF :=
    fillnaStage_WF _ hXwf
  have hnidF : "node_id" ∈ (fillnaStage (engineerDerived cfg t)).cols := by
    rw [fillnaStage_cols]; exact hnidX
  have hUcols : (engineerBody cfg t).cols = (engineerDerived cfg t).cols := by
    rw [engineerBody, astypeNodeId, setCol_cols_of_mem _ _ _ hnidF,
      fillnaStage_cols]
  have hmain : ∀ c, c ∉ metadataCols → c ∈ (engineerDerived cfg t).cols →
      colCells (engineerBody cfg t) c =
        (colCells (engineerDerived cfg t) c).map (fillCell 0) := by
    intro c hcm hcc
    have hcne : c ≠ "node_id" := by
      intro h
      exact hcm (by rw [h]; simp [metadataCols])
    rw [engineerBody, astypeNodeId,
      colCells_setCol_ne _ _ c _ hFwf (by simp) hcne,
      colCells_fillnaStage_not_metadata _ hXwf c hcm (by
        simpa [fillnaStage_cols] using hcc)]
  refine ⟨?_, ?_, ?_, ?_⟩
  · intro c hc hcm
    exact hmain c hcm (by rw [← hUcols]; exact hc)
  · intro c hc hcm cell hcell
    rw [hmain c hcm (by rw [← hUcols]; exact hc)] at hcell
    obtain ⟨x, _, hx⟩ := List.mem_map.mp hcell
    rw [← hx]
    exact fillCell_ne_null 0 x
  · intro c hc
    exact colCells_fillnaStage_metadata _ hXwf c hc
  · intro cell hcell
    rw [engineerBody, astypeNodeId,
      colCells_setCol_self _ _ _ hFwf (by simp)] at hcell
    obtain ⟨r, _, hr⟩ := List.mem_map.mp hcell
    rw [← hr]
    rfl

/-- C8 witness: the fill/metadata invariants evaluated on the concrete
table `tEx` (which contains a NaN latency sample). -/
theorem engineer_features_fill_and_metadata_witness :
    (∀ c ∈ (engineerBody cfgEx tEx).cols, c ∉ metadataCols →
      colCells (engineerBody cfgEx tEx) c =
        (colCells (engineerDerived cfgEx tEx) c).map (fillCell 0))
    ∧ (∀ c ∈ (engineerBody cfgEx tEx).cols, c ∉ metadataCols →
        ∀ cell ∈ colCells (engineerBody cfgEx tEx) c, cell ≠ Cell.null)
    ∧ (∀ c ∈ metadataCols,
        colCells (fillnaStage (engineerDerived cfgEx tEx)) c =
          colCells (engineerDerived cfgEx tEx) c)
    ∧ (∀ cell ∈ colCells (engineerBody cfgEx tEx) "node_id",
        cell.isStr = true) :=
  engineer_features_fill_and_metadata cfgEx tEx (engineerBody cfgEx tEx)
    (by decide) rfl

/-! ## Group-transform lemmas -/

lemma forall2_filter_map_eq {R : Row → Row → Prop} (key₁ key₂ : Row → String)
    (proj₁ proj₂ : Row → Cell)
    (hR : ∀ a b, R a b → key₁ a = key₂ b ∧ proj₁ a = proj₂ b)
    {l₁ l₂ : List Row} (h : List.Forall₂ R l₁ l₂) (K : String) :
    (l₁.filter (fun s => key₁ s == K)).map proj₁ =
      (l₂.filter (fun s => key₂ s == K)).map proj₂ := by
  induction h with
  | nil => rfl
  | @cons a b l₁' l₂' hab htl ih =>
    obtain ⟨hk, hp⟩ := hR a b hab
    simp only [List.filter_cons, hk]
    by_cases hkk : (key₂ b == K) = true
    · rw [if_pos hkk, if_pos hkk, List.map_cons, List.map_cons, hp, ih]
    · rw [if_neg hkk, if_neg hkk, ih]

lemma forall2_filter_length_eq {R : Row → Row → Prop}
    (key₁ key₂ : Row → String)
    (hR : ∀ a b, R a b → key₁ a = key₂ b)
    {l₁ l₂ : List Row} (h : List.Forall₂ R l₁ l₂) (K : String) :
    (l₁.filter (fun s => key₁ s == K)).length =
      (l₂.filter (fun s => key₂ s == K)).length := by
  have := forall2_filter_map_eq key₁ key₂ (fun _ => Cell.null)
    (fun _ => Cell.null) (fun a b hab => ⟨hR a b hab, rfl⟩) h K
  have h2 := congrArg List.length this
  simpa using h2

lemma forall2_append_single {R : Row → Row → Prop} {l₁ l₂ : List Row}
    (h : List.Forall₂ R l₁ l₂) {a b : Row} (hab : R a b) :
    List.Forall₂ R (l₁ ++ [a]) (l₂ ++ [b]) := by
  induction h with
  | nil => exact List.Forall₂.cons hab List.Forall₂.nil
  | cons hxy htl ih => exact List.Forall₂.cons hxy ih

lemma mwgAux_forall2 {R : Row → Row → Prop} (key₁ key₂ : Row → String)
    (proj₁ proj₂ : Row → Cell) (h : List Cell → ℕ → Cell)
    (hR : ∀ a b, R a b → key₁ a = key₂ b ∧ proj₁ a = proj₂ b)
    {full₁ full₂ : List Row} (hfull : List.Forall₂ R full₁ full₂) :
    ∀ {rest₁ rest₂ : List Row}, List.Forall₂ R rest₁ rest₂ →
    ∀ {pre₁ pre₂ : List Row}, List.Forall₂ R pre₁ pre₂ →
    mwgAux key₁ h proj₁ full₁ pre₁ rest₁ =
      mwgAux key₂ h proj₂ full₂ pre₂ rest₂ := by
  intro rest₁ rest₂ hrest
  induction hrest with
  | nil => intro pre₁ pre₂ _; rfl
  | @cons a b rest₁' rest₂' hab htl ih =>
    intro pre₁ pre₂ hpre
    obtain ⟨hk, hp⟩ := hR a b hab
    rw [mwgAux, mwgAux]
    congr 1
    · rw [hk, forall2_filter_map_eq key₁ key₂ proj₁ proj₂ hR hfull (key₂ b),
        forall2_filter_length_eq key₁ key₂ (fun x y hxy => (hR x y hxy).1)
          hpre (key₂ b)]
    · exact ih (forall2_append_single hpre hab)

lemma mapWithGroup_forall2 {R : Row → Row → Prop} (key₁ key₂ : Row → String)
    (proj₁ proj₂ : Row → Cell) (h : List Cell → ℕ → Cell)
    (hR : ∀ a b, R a b → key₁ a = key₂ b ∧ proj₁ a = proj₂ b)
    {rows₁ rows₂ : List Row} (hrows : List.Forall₂ R rows₁ rows₂) :
    mapWithGroup key₁ h proj₁ rows₁ = mapWithGroup key₂ h proj₂ rows₂ :=
  mwgAux_forall2 key₁ key₂ proj₁ proj₂ h hR hrows hrows List.Forall₂.nil

lemma mwgAux_getD (key : Row → String) (h : List Cell → ℕ → Cell)
    (proj : Row → Cell) (full : List Row) :
    ∀ (rest pre : List Row) (i : ℕ), i < rest.length →
    (mwgAux key h proj full pre rest).getD i .null
      = h ((full.filter (fun s => key s == key (rest.getD i []))).map proj)
          (((pre ++ rest.take i).filter
              (fun s => key s == key (rest.getD i []))).length) := by
  intro rest
  induction rest with
  | nil => intro pre i hi; simp at hi
  | cons r rs ih =>
    intro pre i hi
    cases i with
    | zero =>
      rw [mwgAux]
      simp
    | succ j =>
      rw [mwgAux]
      simp only [List.getD_cons_succ]
      rw [ih (pre ++ [r]) j (by simpa using hi)]
      rw [List.append_assoc]
      rfl

lemma mapWithGroup_getD (key : Row → String) (h : List Cell → ℕ → Cell)
    (proj : Row → Cell) (rows : List Row) (i : ℕ) (hi : i < rows.length) :
    (mapWithGroup key h proj rows).getD i .null
      = h ((rows.filter (fun s => key s == key (rows.getD i []))).map proj)
          (((rows.take i).filter
              (fun s => key s == key (rows.getD i []))).length) := by
  rw [mapWithGroup, mwgAux_getD key h proj rows rows [] i hi, List.nil_append]

lemma filter_eq_cons_of_first (rows : List Row) (p : Row → Bool) (i : ℕ)
    (hi : i < rows.length) (hp : p (rows.getD i []) = true)
    (hfirst : (rows.take i).filter p = []) :
    rows.filter p = rows.getD i [] :: (rows.drop (i + 1)).filter p := by
  conv_lhs => rw [← List.take_append_drop i rows]
  rw [List.filter_append, hfirst, List.nil_append,
    List.drop_eq_getElem_cons hi, List.filter_cons,
    ← List.getD_eq_getElem rows [] hi, if_pos hp]

/-! ## Rolling/lag loop characterization -/

lemma keyOf_eq_of_agrees {pcols dcols : List String} {r r' : Row}
    (hnid : "node_id" ∈ pcols) (h : RowAgrees pcols dcols r r') :
    keyOf pcols r = keyOf dcols r' := by
  rw [keyOf, keyOf, h "node_id" hnid]

lemma DeriveInv.refl' (P : Table) (hP : P.WF) : DeriveInv P P :=
  ⟨hP, ColsExt.rfl' P,
    List.forall₂_same.mpr (fun r _ c _ => rfl)⟩

lemma rowAgrees_append {P D : Table} (hext : ColsExt P D) (hD : D.WF)
    {r r' : Row} (h : RowAgrees P.cols D.cols r r') (hr' : r' ∈ D.rows)
    (d : String) (v : Cell) :
    RowAgrees P.cols (D.cols ++ [d]) r (r' ++ [v]) := by
  intro c hc
  have hcD : c ∈ D.cols := hext.mem hc
  obtain ⟨j, hj⟩ := colIdx_isSome_of_mem hcD
  have hjs := colIdx_spec D.cols c j hj
  have hrhs : getCell (D.cols ++ [d]) (r' ++ [v]) c = getCell D.cols r' c := by
    rw [getCell, colIdx_append_left D.cols [d] hcD, hj]
    dsimp only
    rw [getD_append_left r' [v] j Cell.null
      (by rw [hD.2 r' hr']; exact hjs.1), getCell, hj]
  rw [hrhs]
  exact h c hc

lemma forall2_zipWith_append {P D : Table} (hext : ColsExt P D) (hD : D.WF)
    (d : String) :
    ∀ {l₁ l₂ : List Row} (vals : List Cell),
    List.Forall₂ (RowAgrees P.cols D.cols) l₁ l₂ →
    vals.length = l₂.length → (∀ r' ∈ l₂, r' ∈ D.rows) →
    List.Forall₂ (RowAgrees P.cols (D.cols ++ [d])) l₁
      (List.zipWith (fun r v => r ++ [v]) l₂ vals) := by
  intro l₁ l₂ vals h
  induction h generalizing vals with
  | nil => intro _ _; simp
  | @cons a b l₁' l₂' hab htl ih =>
    intro hvlen hmem
    cases vals with
    | nil => simp at hvlen
    | cons v vs =>
      rw [List.zipWith_cons_cons]
      exact List.Forall₂.cons
        (rowAgrees_append hext hD hab (hmem b (by simp)) d v)
        (ih vs (by simpa using hvlen) (fun r' hr' => hmem r' (by simp [hr'])))

lemma DeriveInv_setCol {P D : Table} (hinv : DeriveInv P D) (d : String)
    (vals : List Cell) (hd : d ∉ D.cols) (hlen : vals.length = D.rows.length) :
    DeriveInv P (setCol D d vals) := by
  obtain ⟨hwf, hext, hrows⟩ := hinv
  refine ⟨setCol_WF D d vals hwf hlen,
    ColsExt.trans' hext (setCol_colsExt D d vals), ?_⟩
  rw [setCol, (colIdx_eq_none_iff D.cols d).mpr hd]
  exact forall2_zipWith_append hext hwf d vals hrows hlen (fun r' hr' => hr')

lemma forall2_map_eq {R : Row → Row → Prop} (f g : Row → Cell)
    (hfg : ∀ a b, R a b → f a = g b) :
    ∀ {l₁ l₂ : List Row}, List.Forall₂ R l₁ l₂ → l₁.map f = l₂.map g := by
  intro l₁ l₂ h
  induction h with
  | nil => rfl
  | cons hab htl ih => simp only [List.map_cons, hfg _ _ hab, ih]

lemma colCells_eq_of_inv {P D : Table} (hinv : DeriveInv P D) (c : String)
    (hc : c ∈ P.cols) : colCells D c = colCells P c := by
  obtain ⟨_, _, hrows⟩ := hinv
  rw [colCells, colCells]
  exact (forall2_map_eq (fun r => getCell P.cols r c)
    (fun r => getCell D.cols r c) (fun a b hab => hab c hc) hrows).symm

lemma deriveInv_rows_length {P D : Table} (hinv : DeriveInv P D) :
    D.rows.length = P.rows.length := hinv.2.2.length_eq.symm

lemma addGroupCol_char {P D : Table} (hinv : DeriveInv P D)
    (hnid : "node_id" ∈ P.cols) {m : String} (hm : m ∈ P.cols)
    {name : String} (hname : name ∉ D.cols) (h : List Cell → ℕ → Cell) :
    DeriveInv P (addGroupCol D name m h)
    ∧ (addGroupCol D name m h).cols = D.cols ++ [name]
    ∧ colCells (addGroupCol D name m h) name = groupedCol h P m
    ∧ ∀ c, c ≠ name → colCells (addGroupCol D name m h) c = colCells D c := by
  obtain ⟨hwf, hext, hrows⟩ := hinv
  have hlen : (mapWithGroup (keyOf D.cols) h
      (fun r => getCell D.cols r m) D.rows).length = D.rows.length :=
    mapWithGroup_length _ _ _ _
  have hvals : mapWithGroup (keyOf D.cols) h
      (fun r => getCell D.cols r m) D.rows = groupedCol h P m := by
    rw [groupedCol]
    exact (mapWithGroup_forall2 (keyOf P.cols) (keyOf D.cols)
      (fun r => getCell P.cols r m) (fun r => getCell D.cols r m) h
      (fun a b hab => ⟨keyOf_eq_of_agrees hnid hab, hab m hm⟩) hrows).symm
  refine ⟨DeriveInv_setCol ⟨hwf, hext, hrows⟩ name _ hname hlen, ?_, ?_, ?_⟩
  · exact setCol_cols_of_not_mem D name _ hname
  · rw [addGroupCol, colCells_setCol_self D name _ hwf hlen, hvals]
  · intro c hc
    rw [addGroupCol, colCells_setCol_ne D name c _ hwf hlen hc]

lemma metric_fold_char {P : Table} (hnid : "node_id" ∈ P.cols)
    {m : String} (hm : m ∈ P.cols) :
    ∀ (ws : List (String × (List Cell → ℕ → Cell))) (D : Table),
    DeriveInv P D → (∀ p ∈ ws, p.1 ∉ D.cols) → (ws.map (fun p => p.1)).Nodup →
    DeriveInv P (ws.foldl (fun u p => addGroupCol u p.1 m p.2) D)
    ∧ (ws.foldl (fun u p => addGroupCol u p.1 m p.2) D).cols
        = D.cols ++ ws.map (fun p => p.1)
    ∧ (∀ p ∈ ws, colCells (ws.foldl (fun u p => addGroupCol u p.1 m p.2) D)
        p.1 = groupedCol p.2 P m)
    ∧ ∀ c, c ∉ ws.map (fun p => p.1) →
        colCells (ws.foldl (fun u p => addGroupCol u p.1 m p.2) D) c
          = colCells D c := by
  intro ws
  induction ws with
  | nil =>
    intro D hinv _ _
    exact ⟨hinv, by simp, by simp, fun c _ => rfl⟩
  | cons p ps ih =>
    intro D hinv hfresh hnd
    have hp1 : p.1 ∉ D.cols := hfresh p (by simp)
    obtain ⟨hinv₁, hcols₁, hself₁, hother₁⟩ :=
      addGroupCol_char hinv hnid hm hp1 p.2
    have hndtail : (ps.map (fun p => p.1)).Nodup := by
      rw [List.map_cons] at hnd
      exact hnd.of_cons
    have hp1tail : p.1 ∉ ps.map (fun p => p.1) := by
      rw [List.map_cons] at hnd
      exact (List.nodup_cons.mp hnd).1
    have hfreshtail : ∀ q ∈ ps, q.1 ∉ (addGroupCol D p.1 m p.2).cols := by
      intro q hq
      rw [hcols₁]
      simp only [List.mem_append, List.mem_singleton]
      rintro (h1 | h2)
      · exact hfresh q (by simp [hq]) h1
      · exact hp1tail (h2 ▸ List.mem_map_of_mem (fun p => p.1) hq)
    obtain ⟨hinv', hcols', hself', hother'⟩ :=
      ih (addGroupCol D p.1 m p.2) hinv₁ hfreshtail hndtail
    rw [List.foldl_cons]
    refine ⟨hinv', ?_, ?_, ?_⟩
    · rw [hcols', hcols₁, List.append_assoc]
      rfl
    · intro q hq
      rcases List.mem_cons.mp hq with h1 | h2
      · rw [h1, hother' p.1 hp1tail, hself₁]
      · exact hself' q h2
    · intro c hc
      have hc1 : c ∉ ps.map (fun p => p.1) := by
        intro hmem
        exact hc (by simp [hmem])
      have hc2 : c ≠ p.1 := by
        intro hmem
        exact hc (by simp [hmem])
      rw [hother' c hc1, hother₁ c hc2]

lemma foldl_flatMap_pair {α γ : Type} {β : Type}
    (step : α → β → α) (f g : γ → β) :
    ∀ (l : List γ) (a : α),
    (l.flatMap (fun w => [f w, g w])).foldl step a
      = l.foldl (fun u w => step (step u (f w)) (g w)) a := by
  intro l
  induction l with
  | nil => intro a; rfl
  | cons x xs ih =>
    intro a
    rw [List.flatMap_cons, List.foldl_append, List.foldl_cons, List.foldl_cons,
      List.foldl_nil, ih, List.foldl_cons]

lemma processMetric_eq_foldl (cfg : FEConfig) (D : Table) (m : String)
    (hm : m ∈ D.cols) :
    processMetric cfg D m =
      (metricWrites cfg m).foldl (fun u p => addGroupCol u p.1 m p.2) D := by
  have h1 := foldl_flatMap_pair (fun u p => addGroupCol u p.1 m p.2)
    (fun w => (rollingMeanName m w, rollMeanAt w))
    (fun w => (rollingStdName m w, rollStdAt w)) cfg.rolling_windows
    (addGroupCol D (trendName m) m diffAt)
  rw [processMetric, if_pos hm, metricWrites, List.foldl_cons,
    List.foldl_append, h1, List.foldl_map]

lemma writeNames_cons (cfg : FEConfig) (P : Table) (m₀ : String)
    (ms : List String) :
    writeNames cfg P (m₀ :: ms) =
      if m₀ ∈ P.cols
      then (metricWrites cfg m₀).map (fun p => p.1) ++ writeNames cfg P ms
      else writeNames cfg P ms := by
  rw [writeNames, writeNames, List.filter_cons]
  by_cases h : m₀ ∈ P.cols
  · simp [h]
  · simp [h]

lemma metrics_fold_char (cfg : FEConfig) {P : Table}
    (hnid : "node_id" ∈ P.cols) :
    ∀ (ms : List String) (D : Table), DeriveInv P D →
    (∀ d ∈ writeNames cfg P ms, d ∉ D.cols) →
    (writeNames cfg P ms).Nodup →
    (∀ m ∈ ms, m ∉ writeNames cfg P ms ∧ (m ∈ D.cols ↔ m ∈ P.cols)) →
    DeriveInv P (ms.foldl (processMetric cfg) D)
    ∧ (ms.foldl (processMetric cfg) D).cols = D.cols ++ writeNames cfg P ms
    ∧ (∀ m ∈ ms, m ∈ P.cols → ∀ p ∈ metricWrites cfg m,
        colCells (ms.foldl (processMetric cfg) D) p.1 = groupedCol p.2 P m)
    ∧ ∀ c, c ∉ writeNames cfg P ms →
        colCells (ms.foldl (processMetric cfg) D) c = colCells D c := by
  intro ms
  induction ms with
  | nil =>
    intro D hinv _ _ _
    exact ⟨hinv, by simp [writeNames], by simp, fun c _ => rfl⟩
  | cons m₀ ms' ih =>
    intro D hinv hfresh hnd hmem
    by_cases hm₀ : m₀ ∈ P.cols
    · have hwn : writeNames cfg P (m₀ :: ms') =
          (metricWrites cfg m₀).map (fun p => p.1) ++ writeNames cfg P ms' := by
        rw [writeNames_cons, if_pos hm₀]
      rw [hwn] at hfresh hnd
      have hm₀D : m₀ ∈ D.cols := ((hmem m₀ (by simp)).2).mpr hm₀
      rw [List.foldl_cons, processMetric_eq_foldl cfg D m₀ hm₀D]
      have hndm : ((metricWrites cfg m₀).map (fun p => p.1)).Nodup :=
        hnd.of_append_left
      obtain ⟨hinv₁, hcols₁, hself₁, hother₁⟩ :=
        metric_fold_char hnid hm₀ (metricWrites cfg m₀) D hinv
          (fun p hp => hfresh p.1
            (List.mem_append_left _ (List.mem_map_of_mem _ hp)))
          hndm
      have hdisj := List.disjoint_of_nodup_append hnd
      have hfresh' : ∀ d ∈ writeNames cfg P ms',
          d ∉ ((metricWrites cfg m₀).foldl
            (fun u p => addGroupCol u p.1 m₀ p.2) D).cols := by
        intro d hd
        rw [hcols₁]
        simp only [List.mem_append]
        rintro (h1 | h2)
        · exact hfresh d (List.mem_append_right _ hd) h1
        · exact hdisj h2 hd
      have hnd' : (writeNames cfg P ms').Nodup := hnd.of_append_right
      have hmem' : ∀ m ∈ ms', m ∉ writeNames cfg P ms'
          ∧ (m ∈ ((metricWrites cfg m₀).foldl
              (fun u p => addGroupCol u p.1 m₀ p.2) D).cols ↔ m ∈ P.cols) := by
        intro m hm
        obtain ⟨hm1, hm2⟩ := hmem m (by simp [hm])
        refine ⟨fun hc => hm1 (by rw [hwn]; exact List.mem_append_right _ hc),
          ?_⟩
        rw [hcols₁]
        constructor
        · intro hc
          rcases List.mem_append.mp hc with h1 | h2
          · exact hm2.mp h1
          · exact absurd (by rw [hwn]; exact List.mem_append_left _ h2) hm1
        · intro hc
          exact List.mem_append_left _ (hm2.mpr hc)
      obtain ⟨hinv', hcols', hself', hother'⟩ :=
        ih ((metricWrites cfg m₀).foldl
          (fun u p => addGroupCol u p.1 m₀ p.2) D) hinv₁ hfresh' hnd' hmem'
      refine ⟨hinv', ?_, ?_, ?_⟩
      · rw [hcols', hcols₁, hwn, List.append_assoc]
      · intro m hm hmP p hp
        rcases List.mem_cons.mp hm with h1 | h2
        · subst h1
          rw [hother' p.1
            (fun hc => hdisj (List.mem_map_of_mem _ hp) hc), hself₁ p hp]
        · exact hself' m h2 hmP p hp
      · intro c hc
        rw [hwn] at hc
        simp only [List.mem_append, not_or] at hc
        rw [hother' c hc.2, hother₁ c hc.1]
    · have hwn : writeNames cfg P (m₀ :: ms') = writeNames cfg P ms' := by
        rw [writeNames_cons, if_neg hm₀]
      rw [hwn] at hfresh hnd ⊢
      have hm₀D : m₀ ∉ D.cols := fun hc => hm₀ (((hmem m₀ (by simp)).2).mp hc)
      rw [List.foldl_cons, processMetric, if_neg hm₀D]
      have hmem' : ∀ m ∈ ms', m ∉ writeNames cfg P ms'
          ∧ (m ∈ D.cols ↔ m ∈ P.cols) := by
        intro m hm
        obtain ⟨hm1, hm2⟩ := hmem m (by simp [hm])
        exact ⟨fun hc => hm1 (hwn ▸ hc), hm2⟩
      obtain ⟨hinv', hcols', hself', hother'⟩ := ih D hinv hfresh hnd hmem'
      refine ⟨hinv', hcols', ?_, hother'⟩
      intro m hm hmP p hp
      rcases List.mem_cons.mp hm with h1 | h2
      · exact absurd (h1 ▸ hmP) hm₀
      · exact hself' m h2 hmP p hp

lemma deriveStage_char (cfg : FEConfig) (P : Table) (hP : P.WF)
    (hnid : "node_id" ∈ P.cols) (hfresh : FreshDerived cfg P) :
    DeriveInv P (deriveStage cfg P)
    ∧ (deriveStage cfg P).cols = P.cols ++ derivedNames cfg P
    ∧ ∀ m ∈ allMetricsToProcess cfg, m ∈ P.cols →
        ∀ p ∈ metricWrites cfg m,
        colCells (deriveStage cfg P) p.1 = groupedCol p.2 P m := by
  obtain ⟨hnd, hnotin, hmm⟩ := hfresh
  have h := metrics_fold_char cfg hnid (allMetricsToProcess cfg) P
    (DeriveInv.refl' P hP) hnotin hnd (fun m hm => ⟨hmm m hm, Iff.rfl⟩)
  exact ⟨h.1, h.2.1, h.2.2.1⟩

/-! ## C10: rolling statistics at a node's first row -/

lemma getD_map {α β : Type} (f : α → β) :
    ∀ (l : List α) (i : ℕ) (d : β) (d₀ : α), i < l.length →
    (l.map f).getD i d = f (l.getD i d₀) := by
  intro l
  induction l with
  | nil => intro i d d₀ h; simp at h
  | cons x xs ih =>
    intro i d d₀ h
    cases i with
    | zero => rfl
    | succ j =>
      simp only [List.map_cons, List.getD_cons_succ]
      exact ih j d d₀ (by simpa using h)

lemma engineerPrepared_WF_colsExt (cfg : FEConfig) (t : Table)
    (hwf : t.WF) :
    (engineerPrepared cfg t).WF ∧ ColsExt t (engineerPrepared cfg t) := by
  rw [engineerPrepared]
  have h0 : (astypeNodeId t).WF := astypeNodeId_WF t hwf
  have h0e := astypeNodeId_colsExt t
  have h1 : (sortStage (astypeNodeId t)).WF := sortStage_WF _ h0
  have h1e := sortStage_colsExt (astypeNodeId t)
  have h2 := applyFeatureDefaults_WF_colsExt cfg _ h1
  have h3 := engineer_interaction_features_WF_colsExt cfg _ h2.1
  have h4 := engineer_threshold_features_WF_colsExt cfg _ h3.1
  exact ⟨h4.1, ColsExt.trans' h0e (ColsExt.trans' h1e
    (ColsExt.trans' h2.2 (ColsExt.trans' h3.2 h4.2)))⟩

lemma colCells_engineerBody (cfg : FEConfig) (t : Table) (hwf : t.WF)
    (hnid : "node_id" ∈ t.cols) (c : String) (hcm : c ∉ metadataCols)
    (hcD : c ∈ (engineerDerived cfg t).cols) :
    colCells (engineerBody cfg t) c =
      (colCells (engineerDerived cfg t) c).map (fillCell 0) := by
  have hXwfe := engineerDerived_WF_colsExt cfg t hwf
  have hXwf := hXwfe.1
  have hFwf := fillnaStage_WF _ hXwf
  have hcne : c ≠ "node_id" := fun h => hcm (by rw [h]; simp [metadataCols])
  rw [engineerBody, astypeNodeId,
    colCells_setCol_ne _ _ c _ hFwf (by simp) hcne,
    colCells_fillnaStage_not_metadata _ hXwf c hcm
      (by simpa [fillnaStage_cols] using hcD)]

lemma not_mem_metadata_of_length (c : String) (h : 13 ≤ c.length) :
    c ∉ metadataCols := by
  intro hmem
  rw [metadataCols] at hmem
  rcases List.mem_cons.mp hmem with h1 | hmem1
  · subst h1; exact absurd h (by decide)
  rcases List.mem_cons.mp hmem1 with h1 | hmem2
  · subst h1; exact absurd h (by decide)
  rcases List.mem_cons.mp hmem2 with h1 | hmem3
  · subst h1; exact absurd h (by decide)
  · simp at hmem3

lemma rollingStdName_not_metadata (m : String) (w : ℕ) :
    rollingStdName m w ∉ metadataCols := by
  apply not_mem_metadata_of_length
  rw [rollingStdName, String.length_append, String.length_append]
  have h13 : ("_rolling_std_" : String).length = 13 := by decide
  omega

lemma rollingMeanName_not_metadata (m : String) (w : ℕ) :
    rollingMeanName m w ∉ metadataCols := by
  apply not_mem_metadata_of_length
  rw [rollingMeanName, String.length_append, String.length_append]
  have h14 : ("_rolling_mean_" : String).length = 14 := by decide
  omega

lemma mean_mem_metricWrites (cfg : FEConfig) (m : String) (w : ℕ)
    (hww : w ∈ cfg.rolling_windows) :
    (rollingMeanName m w, rollMeanAt w) ∈ metricWrites cfg m := by
  rw [metricWrites]
  refine List.mem_cons_of_mem _ (List.mem_append_left _ ?_)
  exact List.mem_flatMap.mpr ⟨w, hww, by simp⟩

lemma std_mem_metricWrites (cfg : FEConfig) (m : String) (w : ℕ)
    (hww : w ∈ cfg.rolling_windows) :
    (rollingStdName m w, rollStdAt w) ∈ metricWrites cfg m := by
  rw [metricWrites]
  refine List.mem_cons_of_mem _ (List.mem_append_left _ ?_)
  exact List.mem_flatMap.mpr ⟨w, hww, by simp⟩

lemma name_mem_derivedNames (cfg : FEConfig) (P : Table) {m : String}
    (hmAll : m ∈ allMetricsToProcess cfg) (hmP : m ∈ P.cols)
    {q : String × (List Cell → ℕ → Cell)} (hq : q ∈ metricWrites cfg m) :
    q.1 ∈ derivedNames cfg P := by
  rw [derivedNames, writeNames]
  refine List.mem_flatMap.mpr ⟨m, ?_, List.mem_map_of_mem _ hq⟩
  exact List.mem_filter.mpr ⟨hmAll, by simpa using hmP⟩

lemma rollStdAt_pos_zero (w : ℕ) (vals : List Cell) :
    rollStdAt w vals 0 = .null := by
  rw [rollStdAt, if_pos]
  have h1 : (windowSlice w vals 0).length ≤ 1 := by
    rw [windowSlice]
    calc ((vals.take (0 + 1)).drop (0 + 1 - w)).length
        ≤ (vals.take (0 + 1)).length := by
          rw [List.length_drop]; omega
      _ ≤ 1 := by rw [List.length_take]; omega
  have h2 : ((windowSlice w vals 0).filterMap Cell.num?).length
      ≤ (windowSlice w vals 0).length := List.length_filterMap_le _ _
  omega

lemma windowSlice_cons_zero (w : ℕ) (hw1 : 1 ≤ w) (a : Cell)
    (tail : List Cell) : windowSlice w (a :: tail) 0 = [a] := by
  rw [windowSlice]
  have : 0 + 1 - w = 0 := by omega
  rw [this]
  rfl

lemma rollMeanAt_num_zero (w : ℕ) (hw1 : 1 ≤ w) (q : ℚ)
    (tail : List Cell) : rollMeanAt w (.num q :: tail) 0 = .num q := by
  rw [rollMeanAt, windowSlice_cons_zero w hw1]
  simp [Cell.num?, meanQ]

lemma rollMeanAt_null_zero (w : ℕ) (hw1 : 1 ≤ w) (tail : List Cell) :
    rollMeanAt w (.null :: tail) 0 = .null := by
  rw [rollMeanAt, windowSlice_cons_zero w hw1]
  simp [Cell.num?]

/-- C10: in a returned table, for every processed metric, every
configured rolling window size `w ≥ 1` and every row that is the first
of its node's series (in the sorted order the pipeline established),
the rolling-std column holds the default 0 — the sample standard
deviation of a single observation is undefined and the final zero-fill
replaces it — while the rolling-mean column at that same row equals the
row's own (filled) metric value.  Hypotheses: the input is well-formed,
derived names do not collide with existing columns, and the metric cell
at that row is numeric or NaN (as metric columns are). -/
theorem rolling_stats_first_row (cfg : FEConfig) (t u : Table)
    (hwf : t.WF) (hok : engineer_features cfg t = .ok u)
    (hfresh : FreshDerived cfg (engineerPrepared cfg t))
    (m : String) (hmAll : m ∈ allMetricsToProcess cfg)
    (hmP : m ∈ (engineerPrepared cfg t).cols) (hmMeta : m ∉ metadataCols)
    (w : ℕ) (hw1 : 1 ≤ w) (hww : w ∈ cfg.rolling_windows)
    (i : ℕ) (hi : i < (engineerPrepared cfg t).rows.length)
    (hfirst : firstOfGroup (engineerPrepared cfg t) i)
    (hcell : getCell (engineerPrepared cfg t).cols
        ((engineerPrepared cfg t).rows.getD i []) m = Cell.null
      ∨ ∃ q, getCell (engineerPrepared cfg t).cols
        ((engineerPrepared cfg t).rows.getD i []) m = Cell.num q) :
    (colCells u (rollingStdName m w)).getD i Cell.null = Cell.num 0
    ∧ (colCells u (rollingMeanName m w)).getD i Cell.null
        = (colCells u m).getD i Cell.null := by
  obtain ⟨hts, hnid, hu⟩ := (engineer_features_ok_iff cfg t u).mp hok
  subst hu
  have hPwfe := engineerPrepared_WF_colsExt cfg t hwf
  have hPwf := hPwfe.1
  have hnidP : "node_id" ∈ (engineerPrepared cfg t).cols := hPwfe.2.mem hnid
  obtain ⟨hinv, hcolsD, hcharD⟩ :=
    deriveStage_char cfg (engineerPrepared cfg t) hPwf hnidP hfresh
  have hlenD : (engineerDerived cfg t).rows.length
      = (engineerPrepared cfg t).rows.length := deriveInv_rows_length hinv
  have hstdD : rollingStdName m w ∈ (engineerDerived cfg t).cols := by
    rw [engineerDerived, hcolsD]
    exact List.mem_append_right _
      (name_mem_derivedNames cfg _ hmAll hmP (std_mem_metricWrites cfg m w hww))
  have hmeanD : rollingMeanName m w ∈ (engineerDerived cfg t).cols := by
    rw [engineerDerived, hcolsD]
    exact List.mem_append_right _
      (name_mem_derivedNames cfg _ hmAll hmP (mean_mem_metricWrites cfg m w hww))
  have hmD : m ∈ (engineerDerived cfg t).cols := by
    rw [engineerDerived, hcolsD]
    exact List.mem_append_left _ hmP
  have hstdcol : colCells (engineerDerived cfg t) (rollingStdName m w)
      = groupedCol (rollStdAt w) (engineerPrepared cfg t) m :=
    hcharD m hmAll hmP _ (std_mem_metricWrites cfg m w hww)
  have hmeancol : colCells (engineerDerived cfg t) (rollingMeanName m w)
      = groupedCol (rollMeanAt w) (engineerPrepared cfg t) m :=
    hcharD m hmAll hmP _ (mean_mem_metricWrites cfg m w hww)
  have hmcol : colCells (engineerDerived cfg t) m
      = colCells (engineerPrepared cfg t) m := colCells_eq_of_inv hinv m hmP
  have hcnt : (((engineerPrepared cfg t).rows.take i).filter
      (fun s => keyOf (engineerPrepared cfg t).cols s ==
        keyOf (engineerPrepared cfg t).cols
          ((engineerPrepared cfg t).rows.getD i []))).length = 0 := by
    rw [hfirst]
    rfl
  have hfilter := filter_eq_cons_of_first (engineerPrepared cfg t).rows
    (fun s => keyOf (engineerPrepared cfg t).cols s ==
      keyOf (engineerPrepared cfg t).cols
        ((engineerPrepared cfg t).rows.getD i [])) i hi (by simp) hfirst
  -- positional value of a grouped column at the first row of its group
  have hgrp : ∀ h : List Cell → ℕ → Cell,
      (groupedCol h (engineerPrepared cfg t) m).getD i Cell.null
        = h (getCell (engineerPrepared cfg t).cols
              ((engineerPrepared cfg t).rows.getD i []) m
            :: (((engineerPrepared cfg t).rows.drop (i + 1)).filter
              (fun s => keyOf (engineerPrepared cfg t).cols s ==
                keyOf (engineerPrepared cfg t).cols
                  ((engineerPrepared cfg t).rows.getD i []))).map
              (fun r => getCell (engineerPrepared cfg t).cols r m)) 0 := by
    intro h
    rw [groupedCol, mapWithGroup_getD _ _ _ _ i hi, hcnt, hfilter,
      List.map_cons]
  have hbody := colCells_engineerBody cfg t hwf hnid
  -- the three output columns as filled derived columns
  have hstdU : (colCells (engineerBody cfg t) (rollingStdName m w)).getD i
      Cell.null = Cell.num 0 := by
    rw [hbody _ (rollingStdName_not_metadata m w) hstdD,
      getD_map (fillCell 0) _ i Cell.null Cell.null
        (by rw [colCells_length, hlenD]; exact hi),
      hstdcol, hgrp (rollStdAt w), rollStdAt_pos_zero]
    rfl
  have hmeanU : (colCells (engineerBody cfg t) (rollingMeanName m w)).getD i
      Cell.null = (colCells (engineerBody cfg t) m).getD i Cell.null := by
    rw [hbody _ (rollingMeanName_not_metadata m w) hmeanD,
      getD_map (fillCell 0) _ i Cell.null Cell.null
        (by rw [colCells_length, hlenD]; exact hi),
      hmeancol, hgrp (rollMeanAt w),
      hbody m hmMeta hmD,
      getD_map (fillCell 0) _ i Cell.null Cell.null
        (by rw [colCells_length, hlenD]; exact hi),
      hmcol, colCells,
      getD_map _ _ i Cell.null [] hi]
    rcases hcell with hnull | ⟨q, hq⟩
    · rw [hnull, rollMeanAt_null_zero w hw1]
    · rw [hq, rollMeanAt_num_zero w hw1]
  exact ⟨hstdU, hmeanU⟩

/-- C10 witness: the rolling-std/rolling-mean first-row property
evaluated on the concrete table `tEx` (window 3, metric `cpu_usage`,
row 0, which heads node "a"'s series after sorting). -/
theorem rolling_stats_first_row_witness :
    (colCells (engineerBody cfgEx tEx) (rollingStdName "cpu_usage" 3)).getD 0
      Cell.null = Cell.num 0
    ∧ (colCells (engineerBody cfgEx tEx)
        (rollingMeanName "cpu_usage" 3)).getD 0 Cell.null
        = (colCells (engineerBody cfgEx tEx) "cpu_usage").getD 0 Cell.null :=
  rolling_stats_first_row cfgEx tEx (engineerBody cfgEx tEx) (by decide) rfl
    (by decide) "cpu_usage" (by decide) (by decide) (by decide)
    3 (by decide) (by decide) 0 (by decide) (by decide)
    (Or.inr ⟨50, by decide⟩)

/-! ## C9: per-node rolling independence — ordering infrastructure -/

lemma char_eq_of_toNat_eq {a b : Char} (h : a.toNat = b.toNat) : a = b := by
  have hval : a.val = b.val := by
    have h2 : a.val.toNat = b.val.toNat := h
    exact UInt32.ext h2
  cases a
  cases b
  simp only at hval
  subst hval
  rfl

lemma charsLt_irrefl : ∀ (l : List Char), charsLt l l = false := by
  intro l
  induction l with
  | nil => rfl
  | cons x xs ih =>
    rw [charsLt, if_neg (lt_irrefl x.toNat), if_neg (lt_irrefl x.toNat)]
    exact ih

lemma charsLt_trans : ∀ (a b c : List Char), charsLt a b = true →
    charsLt b c = true → charsLt a c = true := by
  intro a
  induction a with
  | nil =>
    intro b c hab hbc
    cases b with
    | nil => exact hbc
    | cons y ys =>
      cases c with
      | nil => simp [charsLt] at hbc
      | cons z zs => rfl
  | cons x xs ih =>
    intro b c hab hbc
    cases b with
    | nil => simp [charsLt] at hab
    | cons y ys =>
      cases c with
      | nil => simp [charsLt] at hbc
      | cons z zs =>
        rw [charsLt] at hab hbc ⊢
        by_cases hxy : x.toNat < y.toNat
        · by_cases hyz : y.toNat < z.toNat
          · rw [if_pos (by omega)]
          · rw [if_neg hyz] at hbc
            by_cases hzy : z.toNat < y.toNat
            · rw [if_pos hzy] at hbc
              simp at hbc
            · have : y.toNat = z.toNat := by omega
              rw [if_pos (by omega)]
        · rw [if_neg hxy] at hab
          by_cases hyx : y.toNat < x.toNat
          · rw [if_pos hyx] at hab
            simp at hab
          · rw [if_neg hyx] at hab
            have hxyeq : x.toNat = y.toNat := by omega
            by_cases hyz : y.toNat < z.toNat
            · rw [if_pos (by omega)]
            · rw [if_neg hyz] at hbc
              by_cases hzy : z.toNat < y.toNat
              · rw [if_pos hzy] at hbc
                simp at hbc
              · rw [if_neg hzy] at hbc
                rw [if_neg (by omega), if_neg (by omega)]
                exact ih ys zs hab hbc

lemma charsLt_connex : ∀ (a b : List Char), a ≠ b →
    charsLt a b = true ∨ charsLt b a = true := by
  intro a
  induction a with
  | nil =>
    intro b hne
    cases b with
    | nil => exact absurd rfl hne
    | cons y ys => left; rfl
  | cons x xs ih =>
    intro b hne
    cases b with
    | nil => right; rfl
    | cons y ys =>
      rw [charsLt, charsLt]
      by_cases hxy : x.toNat < y.toNat
      · left; rw [if_pos hxy]
      · by_cases hyx : y.toNat < x.toNat
        · right; rw [if_pos hyx]
        · have hxyeq : x = y := char_eq_of_toNat_eq (by omega)
          subst hxyeq
          have htail : xs ≠ ys := by
            intro h; exact hne (by rw [h])
          simp only [if_neg (lt_irrefl x.toNat)]
          exact ih ys htail

lemma pyStrLt_irrefl (s : String) : pyStrLt s s = false := charsLt_irrefl _

lemma pyStrLt_trans {a b c : String} (h1 : pyStrLt a b = true)
    (h2 : pyStrLt b c = true) : pyStrLt a c = true :=
  charsLt_trans _ _ _ h1 h2

lemma pyStrLt_connex {a b : String} (hne : a ≠ b) :
    pyStrLt a b = true ∨ pyStrLt b a = true := by
  refine charsLt_connex a.data b.data (fun h => hne ?_)
  cases a
  cases b
  exact congrArg String.mk (by simpa using h)

lemma tsLe_total : ∀ (a b : Cell), tsLe a b = true ∨ tsLe b a = true := by
  intro a b
  cases a <;> cases b <;> simp [tsLe] <;> try omega
  case num.num x y => exact le_total x y
  case str.str x y =>
    by_cases h : pyStrLt y x = true
    · right
      by_cases h2 : pyStrLt x y = true
      · have := pyStrLt_trans h h2
        rw [pyStrLt_irrefl] at this
        simp at this
      · simpa using h2
    · left; simpa using h
  case sqrtOf.sqrtOf x y => exact le_total x y

lemma tsLe_trans : ∀ (a b c : Cell), tsLe a b = true → tsLe b c = true →
    tsLe a c = true := by
  intro a b c hab hbc
  cases a <;> cases b <;> cases c <;> simp_all [tsLe]
  case num.num.num x y z => exact le_trans hab hbc
  case str.str.str x y z =>
    by_contra hcon
    have hzx : pyStrLt z x = true := by
      cases hc : pyStrLt z x with
      | true => rfl
      | false => exact absurd hc hcon
    by_cases hyz : y = z
    · rw [← hyz] at hzx
      rw [hzx] at hab
      exact Bool.noConfusion hab
    · rcases pyStrLt_connex hyz with h1 | h1
      · have h2 := pyStrLt_trans h1 hzx
        rw [h2] at hab
        exact Bool.noConfusion hab
      · rw [h1] at hbc
        exact Bool.noConfusion hbc
  case sqrtOf.sqrtOf.sqrtOf x y z => exact le_trans hab hbc

lemma rowLe_total (cols : List String) (a b : Row) :
    rowLe cols a b = true ∨ rowLe cols b a = true := by
  rw [rowLe, rowLe]
  by_cases h : keyOf cols a = keyOf cols b
  · rw [if_pos h, if_pos h.symm]
    exact tsLe_total _ _
  · rw [if_neg h, if_neg (fun h2 => h h2.symm)]
    exact pyStrLt_connex h

lemma rowLe_trans (cols : List String) (a b c : Row)
    (hab : rowLe cols a b = true) (hbc : rowLe cols b c = true) :
    rowLe cols a c = true := by
  rw [rowLe] at hab hbc ⊢
  by_cases h1 : keyOf cols a = keyOf cols b
  · rw [if_pos h1] at hab
    by_cases h2 : keyOf cols b = keyOf cols c
    · rw [if_pos h2] at hbc
      rw [if_pos (h1.trans h2)]
      exact tsLe_trans _ _ _ hab hbc
    · rw [if_neg h2] at hbc
      rw [if_neg (fun h => h2 (h1.symm.trans h)), h1]
      exact hbc
  · rw [if_neg h1] at hab
    by_cases h2 : keyOf cols b = keyOf cols c
    · rw [if_neg (fun h => h1 (h.trans h2.symm)), ← h2]
      exact hab
    · rw [if_neg h2] at hbc
      have htrans := pyStrLt_trans hab hbc
      have hne : keyOf cols a ≠ keyOf cols c := by
        intro h
        rw [h] at htrans
        simp [pyStrLt_irrefl] at htrans
      rw [if_neg hne]
      exact htrans

lemma insertSortedBy_front {α : Type} (le : α → α → Bool) (a : α)
    (l : List α) (h : ∀ z ∈ l, le a z = true) :
    insertSortedBy le a l = a :: l := by
  cases l with
  | nil => rfl
  | cons x xs => rw [insertSortedBy, if_pos (h x (by simp))]

lemma pairwise_insertSortedBy {α : Type} (le : α → α → Bool)
    (htot : ∀ x y, le x y = true ∨ le y x = true)
    (htrans : ∀ x y z, le x y = true → le y z = true → le x z = true)
    (a : α) :
    ∀ l, l.Pairwise (fun x y => le x y = true) →
    (insertSortedBy le a l).Pairwise (fun x y => le x y = true) := by
  intro l
  induction l with
  | nil => intro _; simp [insertSortedBy]
  | cons x xs ih =>
    intro hp
    obtain ⟨hx, hxs⟩ := List.pairwise_cons.mp hp
    rw [insertSortedBy]
    by_cases h : le a x = true
    · rw [if_pos h]
      refine List.pairwise_cons.mpr ⟨?_, hp⟩
      intro b hb
      rcases List.mem_cons.mp hb with h1 | h2
      · exact h1 ▸ h
      · exact htrans a x b h (hx b h2)
    · rw [if_neg h]
      have hxa : le x a = true := by
        rcases htot a x with h1 | h1
        · exact absurd h1 h
        · exact h1
      refine List.pairwise_cons.mpr ⟨?_, ih hxs⟩
      intro b hb
      rcases (mem_insertSortedBy le a xs b).mp hb with h1 | h2
      · exact h1 ▸ hxa
      · exact hx b h2

lemma pairwise_sortedBy {α : Type} (le : α → α → Bool)
    (htot : ∀ x y, le x y = true ∨ le y x = true)
    (htrans : ∀ x y z, le x y = true → le y z = true → le x z = true) :
    ∀ l : List α, (sortedBy le l).Pairwise (fun x y => le x y = true) := by
  intro l
  induction l with
  | nil => exact List.Pairwise.nil
  | cons a xs ih =>
    rw [sortedBy]
    exact pairwise_insertSortedBy le htot htrans a _ ih

lemma filter_insertSortedBy {α : Type} (le : α → α → Bool) (p : α → Bool)
    (htrans : ∀ x y z, le x y = true → le y z = true → le x z = true)
    (a : α) :
    ∀ l, l.Pairwise (fun x y => le x y = true) →
    (insertSortedBy le a l).filter p
      = if p a then insertSortedBy le a (l.filter p) else l.filter p := by
  intro l
  induction l with
  | nil => cases hpa : p a <;> simp [insertSortedBy, hpa]
  | cons x xs ih =>
    intro hp
    obtain ⟨hx, hxs⟩ := List.pairwise_cons.mp hp
    rw [insertSortedBy]
    by_cases hax : le a x = true
    · rw [if_pos hax]
      by_cases hpa : p a = true
      · rw [if_pos hpa, List.filter_cons, if_pos hpa]
        rw [insertSortedBy_front le a ((x :: xs).filter p) ?_]
        intro z hz
        have hz' := List.mem_of_mem_filter hz
        rcases List.mem_cons.mp hz' with h1 | h2
        · exact h1 ▸ hax
        · exact htrans a x z hax (hx z h2)
      · rw [if_neg hpa, List.filter_cons, if_neg hpa]
    · rw [if_neg hax, List.filter_cons]
      by_cases hpx : p x = true
      · rw [if_pos hpx, ih hxs]
        by_cases hpa : p a = true
        · rw [if_pos hpa, if_pos hpa, List.filter_cons, if_pos hpx,
            insertSortedBy, if_neg hax]
        · rw [if_neg hpa, if_neg hpa, List.filter_cons, if_pos hpx]
      · rw [if_neg hpx, ih hxs]
        by_cases hpa : p a = true
        · rw [if_pos hpa, if_pos hpa, List.filter_cons, if_neg hpx]
        · rw [if_neg hpa, if_neg hpa, List.filter_cons, if_neg hpx]

lemma filter_sortedBy {α : Type} (le : α → α → Bool) (p : α → Bool)
    (htot : ∀ x y, le x y = true ∨ le y x = true)
    (htrans : ∀ x y z, le x y = true → le y z = true → le x z = true) :
    ∀ l : List α, (sortedBy le l).filter p = sortedBy le (l.filter p) := by
  intro l
  induction l with
  | nil => rfl
  | cons a xs ih =>
    rw [sortedBy, filter_insertSortedBy le p htrans a _
      (pairwise_sortedBy le htot htrans xs), ih, List.filter_cons]
    by_cases hpa : p a = true
    · rw [if_pos hpa, if_pos hpa, sortedBy]
    · rw [if_neg hpa, if_neg hpa]

lemma rowsOfNode_sortStage (t : Table) (A : String) :
    rowsOfNode (sortStage t) A = sortedBy (rowLe t.cols) (rowsOfNode t A) := by
  rw [rowsOfNode, rowsOfNode, sortStage]
  exact filter_sortedBy (rowLe t.cols) _ (rowLe_total t.cols)
    (rowLe_trans t.cols) t.rows

/-! ## Rowwise column writes restricted to one node -/

lemma rowUpd_some {cols : List String} {c : String} {i : ℕ}
    (hci : colIdx cols c = some i) (r : Row) (v : Cell) :
    rowUpd cols c r v = r.set i v := by
  rw [rowUpd, hci]

lemma rowUpd_none {cols : List String} {c : String}
    (hci : colIdx cols c = none) (r : Row) (v : Cell) :
    rowUpd cols c r v = r ++ [v] := by
  rw [rowUpd, hci]

lemma zipWith_map_right {α β γ : Type} (f : α → β → γ) (g : α → β) :
    ∀ l : List α, List.zipWith f l (l.map g) = l.map (fun a => f a (g a)) := by
  intro l
  induction l with
  | nil => rfl
  | cons x xs ih => simp only [List.map_cons, List.zipWith_cons_cons, ih]

lemma setCol_rows_map (t : Table) (c : String) (g : Row → Cell) :
    (setCol t c (t.rows.map g)).rows
      = t.rows.map (fun r => rowUpd t.cols c r (g r)) := by
  cases hci : colIdx t.cols c with
  | some i =>
    rw [setCol, hci]
    dsimp only
    rw [zipWith_map_right]
    apply List.map_congr_left
    intro r _
    rw [rowUpd_some hci]
  | none =>
    rw [setCol, hci]
    dsimp only
    rw [zipWith_map_right]
    apply List.map_congr_left
    intro r _
    rw [rowUpd_none hci]

lemma rowsOfNode_setCol_map (t : Table) (A c : String) (g : Row → Cell)
    (hkey : ∀ r ∈ t.rows,
      keyOf (setCol t c (t.rows.map g)).cols (rowUpd t.cols c r (g r))
        = keyOf t.cols r) :
    rowsOfNode (setCol t c (t.rows.map g)) A
      = (rowsOfNode t A).map (fun r => rowUpd t.cols c r (g r)) := by
  rw [rowsOfNode, rowsOfNode, setCol_rows_map, List.filter_map]
  congr 1
  apply List.filter_congr
  intro r hr
  simp only [Function.comp]
  rw [hkey r hr]

lemma cellToStr_astypeStr (c : Cell) : cellToStr (astypeStr c) = cellToStr c :=
  rfl

lemma keyOf_rowUpd_ne_some {cols : List String} {c : String} {i : ℕ}
    (hci : colIdx cols c = some i) (hcne : c ≠ "node_id") (r : Row)
    (v : Cell) : keyOf cols (rowUpd cols c r v) = keyOf cols r := by
  rw [rowUpd_some hci, keyOf, keyOf]
  congr 1
  cases hni : colIdx cols "node_id" with
  | none => rw [getCell, getCell, hni]
  | some j =>
    have hi := colIdx_spec cols c i hci
    have hj := colIdx_spec cols "node_id" j hni
    have hij : i ≠ j := fun h => hcne (by rw [← hi.2, h, hj.2])
    rw [getCell, getCell, hni]
    exact getD_set_ne r i j v Cell.null hij

lemma keyOf_rowUpd_ne_none {cols : List String} {c : String}
    (hci : colIdx cols c = none) (hcne : c ≠ "node_id") (r : Row)
    (hlen : r.length = cols.length) (v : Cell) :
    keyOf (cols ++ [c]) (rowUpd cols c r v) = keyOf cols r := by
  rw [rowUpd_none hci, keyOf, keyOf]
  congr 1
  by_cases hmem : "node_id" ∈ cols
  · obtain ⟨j, hj⟩ := colIdx_isSome_of_mem hmem
    have hjs := colIdx_spec cols "node_id" j hj
    rw [getCell, getCell, colIdx_append_left cols [c] hmem, hj]
    exact getD_append_left r [v] j Cell.null (by rw [hlen]; exact hjs.1)
  · have hout : "node_id" ∉ cols ++ [c] := by
      simp only [List.mem_append, List.mem_singleton]
      rintro (h | h)
      · exact hmem h
      · exact hcne h.symm
    rw [getCell, getCell, (colIdx_eq_none_iff _ _).mpr hout,
      (colIdx_eq_none_iff _ _).mpr hmem]

lemma keyOf_rowUpd_nodeId_some {cols : List String} {i : ℕ}
    (hci : colIdx cols "node_id" = some i) (r : Row)
    (hlen : r.length = cols.length) (v : Cell)
    (hv : cellToStr v = keyOf cols r) :
    keyOf cols (rowUpd cols "node_id" r v) = keyOf cols r := by
  rw [rowUpd_some hci, keyOf, getCell, hci]
  dsimp only
  rw [getD_set_self r i v Cell.null
    (by rw [hlen]; exact (colIdx_spec cols _ i hci).1)]
  exact hv

lemma keyOf_rowUpd_nodeId_none {cols : List String}
    (hci : colIdx cols "node_id" = none) (r : Row)
    (hlen : r.length = cols.length) (v : Cell)
    (hv : cellToStr v = keyOf cols r) :
    keyOf (cols ++ ["node_id"]) (rowUpd cols "node_id" r v)
      = keyOf cols r := by
  rw [rowUpd_none hci, keyOf, getCell,
    colIdx_append_self cols ((colIdx_eq_none_iff _ _).mp hci)]
  dsimp only
  rw [getD_append_self r [v] cols.length Cell.null hlen.symm]
  exact hv

lemma hkey_of_ne (t : Table) (hwf : t.WF) (c : String)
    (hcne : c ≠ "node_id") (g : Row → Cell) :
    ∀ r ∈ t.rows, keyOf (setCol t c (t.rows.map g)).cols
      (rowUpd t.cols c r (g r)) = keyOf t.cols r := by
  intro r hr
  cases hci : colIdx t.cols c with
  | some i =>
    have hmem : c ∈ t.cols := by
      by_contra hmem
      rw [(colIdx_eq_none_iff _ _).mpr hmem] at hci
      exact Option.noConfusion hci
    rw [setCol_cols_of_mem _ _ _ hmem]
    exact keyOf_rowUpd_ne_some hci hcne r (g r)
  | none =>
    have hmem : c ∉ t.cols := (colIdx_eq_none_iff _ _).mp hci
    rw [setCol_cols_of_not_mem _ _ _ hmem]
    exact keyOf_rowUpd_ne_none hci hcne r (hwf.2 r hr) (g r)

lemma hkey_of_nodeId (t : Table) (hwf : t.WF) (g : Row → Cell)
    (hg : ∀ r ∈ t.rows, cellToStr (g r) = keyOf t.cols r) :
    ∀ r ∈ t.rows, keyOf (setCol t "node_id" (t.rows.map g)).cols
      (rowUpd t.cols "node_id" r (g r)) = keyOf t.cols r := by
  intro r hr
  cases hci : colIdx t.cols "node_id" with
  | some i =>
    have hmem : "node_id" ∈ t.cols := by
      by_contra hmem
      rw [(colIdx_eq_none_iff _ _).mpr hmem] at hci
      exact Option.noConfusion hci
    rw [setCol_cols_of_mem _ _ _ hmem]
    exact keyOf_rowUpd_nodeId_some hci r (hwf.2 r hr) (g r) (hg r hr)
  | none =>
    have hmem : "node_id" ∉ t.cols := (colIdx_eq_none_iff _ _).mp hci
    rw [setCol_cols_of_not_mem _ _ _ hmem]
    exact keyOf_rowUpd_nodeId_none hci r (hwf.2 r hr) (g r) (hg r hr)

lemma fillCell_isStr (d : ℚ) (x : Cell) : (fillCell d x).isStr = x.isStr := by
  rw [fillCell]
  split_ifs with h
  · subst h; rfl
  · rfl

lemma nodeIdStr_setCol_ne (t : Table) (hwf : t.WF) (c : String)
    (hcne : c ≠ "node_id") (vals : List Cell)
    (hlen : vals.length = t.rows.length) (h : NodeIdStr t) :
    NodeIdStr (setCol t c vals) := by
  intro cell hcell
  rw [colCells_setCol_ne t c "node_id" vals hwf hlen
    (fun hh => hcne hh.symm)] at hcell
  exact h cell hcell

lemma nodeIdStr_astypeNodeId (t : Table) (hwf : t.WF) :
    NodeIdStr (astypeNodeId t) := by
  intro cell hcell
  rw [astypeNodeId, colCells_setCol_self t _ _ hwf (by simp)] at hcell
  obtain ⟨r, _, hr⟩ := List.mem_map.mp hcell
  rw [← hr]
  rfl

lemma nodeIdStr_sortStage (t : Table) (h : NodeIdStr t) :
    NodeIdStr (sortStage t) := by
  intro cell hcell
  rw [colCells] at hcell
  obtain ⟨r, hrm, hrc⟩ := List.mem_map.mp hcell
  have hmem : r ∈ t.rows := (mem_sortedBy _ _ _).mp hrm
  refine h cell ?_
  rw [colCells, ← hrc]
  exact List.mem_map_of_mem _ hmem

lemma nodeIdStr_mapColCells_nodeId_fill (t : Table) (hwf : t.WF) (d : ℚ)
    (h : NodeIdStr t) : NodeIdStr (mapColCells t "node_id" (fillCell d)) := by
  intro cell hcell
  rw [mapColCells, colCells_setCol_self t _ _ hwf (by simp)] at hcell
  obtain ⟨r, hrm, hrc⟩ := List.mem_map.mp hcell
  rw [← hrc, fillCell_isStr]
  exact h _ (List.mem_map_of_mem _ hrm)

lemma nodeIdStr_fillnaStage (t : Table) (hwf : t.WF)
    (hmem : "node_id" ∈ t.cols) (h : NodeIdStr t) :
    NodeIdStr (fillnaStage t) := by
  intro cell hcell
  rw [colCells_fillnaStage_metadata t hwf "node_id"
    (by simp [metadataCols])] at hcell
  exact h cell hcell

lemma mem_char_of_append_mid (ch : Char) (a mid b : String)
    (h : ch ∈ mid.data) : ch ∈ (a ++ mid ++ b).data := by
  rw [String.data_append, String.data_append]
  exact List.mem_append_left _ (List.mem_append_right _ h)

lemma interactionName_ne_nodeId (a b : String) :
    interactionName a b ≠ "node_id" := by
  intro h
  have hx : 'x' ∈ (interactionName a b).data :=
    mem_char_of_append_mid 'x' a "_x_" b (by decide)
  rw [h] at hx
  exact absurd hx (by decide)

lemma thresholdName_ne_nodeId (c : String) :
    thresholdName c ≠ "node_id" := by
  intro h
  have hx : 'g' ∈ (thresholdName c).data := by
    rw [thresholdName, String.data_append]
    exact List.mem_append_left _ (by decide)
  rw [h] at hx
  exact absurd hx (by decide)

lemma trendName_ne_nodeId (m : String) : trendName m ≠ "node_id" := by
  intro h
  have hx : 'r' ∈ (trendName m).data := by
    rw [trendName, String.data_append]
    exact List.mem_append_right _ (by decide)
  rw [h] at hx
  exact absurd hx (by decide)

lemma rollingMeanName_ne_nodeId (m : String) (w : ℕ) :
    rollingMeanName m w ≠ "node_id" := by
  intro h
  have hx : 'l' ∈ (rollingMeanName m w).data :=
    mem_char_of_append_mid 'l' m "_rolling_mean_" (toString w) (by decide)
  rw [h] at hx
  exact absurd hx (by decide)

lemma rollingStdName_ne_nodeId (m : String) (w : ℕ) :
    rollingStdName m w ≠ "node_id" := by
  intro h
  have hx : 'l' ∈ (rollingStdName m w).data :=
    mem_char_of_append_mid 'l' m "_rolling_std_" (toString w) (by decide)
  rw [h] at hx
  exact absurd hx (by decide)

lemma lagName_ne_nodeId (m : String) (k : ℕ) : lagName m k ≠ "node_id" := by
  intro h
  have hx : 'g' ∈ (lagName m k).data :=
    mem_char_of_append_mid 'g' m "_lag_" (toString k) (by decide)
  rw [h] at hx
  exact absurd hx (by decide)

lemma setCol_cols_congr {t₁ t₂ : Table} (hcols : t₁.cols = t₂.cols)
    (c : String) (v₁ v₂ : List Cell) :
    (setCol t₁ c v₁).cols = (setCol t₂ c v₂).cols := by
  by_cases h : c ∈ t₁.cols
  · rw [setCol_cols_of_mem _ _ _ h, setCol_cols_of_mem _ _ _ (hcols ▸ h),
      hcols]
  · rw [setCol_cols_of_not_mem _ _ _ h,
      setCol_cols_of_not_mem _ _ _ (hcols ▸ h), hcols]

lemma simStep_rowwise (A : String) {t₁ t₂ : Table}
    (hcols : t₁.cols = t₂.cols) (hA : rowsOfNode t₁ A = rowsOfNode t₂ A)
    (c : String) (g : List String → Row → Cell)
    (hkey₁ : ∀ r ∈ t₁.rows, keyOf (setCol t₁ c (t₁.rows.map (g t₁.cols))).cols
      (rowUpd t₁.cols c r (g t₁.cols r)) = keyOf t₁.cols r)
    (hkey₂ : ∀ r ∈ t₂.rows, keyOf (setCol t₂ c (t₂.rows.map (g t₂.cols))).cols
      (rowUpd t₂.cols c r (g t₂.cols r)) = keyOf t₂.cols r) :
    (setCol t₁ c (t₁.rows.map (g t₁.cols))).cols
      = (setCol t₂ c (t₂.rows.map (g t₂.cols))).cols
    ∧ rowsOfNode (setCol t₁ c (t₁.rows.map (g t₁.cols))) A
      = rowsOfNode (setCol t₂ c (t₂.rows.map (g t₂.cols))) A := by
  refine ⟨setCol_cols_congr hcols c _ _, ?_⟩
  rw [rowsOfNode_setCol_map t₁ A c (g t₁.cols) hkey₁,
    rowsOfNode_setCol_map t₂ A c (g t₂.cols) hkey₂, hA, hcols]

lemma nodeId_mem_setCol (t : Table) (c : String) (vals : List Cell)
    (h : "node_id" ∈ t.cols) : "node_id" ∈ (setCol t c vals).cols :=
  (setCol_colsExt t c vals).mem h

lemma nodeId_mem_astypeNodeId (t : Table) :
    "node_id" ∈ (astypeNodeId t).cols := by
  by_cases h : "node_id" ∈ t.cols
  · rw [astypeNodeId, setCol_cols_of_mem _ _ _ h]
    exact h
  · rw [astypeNodeId, setCol_cols_of_not_mem _ _ _ h]
    exact List.mem_append_right _ (by simp)

lemma simInv_astypeNodeId (A : String) {t₁ t₂ : Table}
    (h₁ : t₁.WF) (h₂ : t₂.WF) (hcols : t₁.cols = t₂.cols)
    (hA : rowsOfNode t₁ A = rowsOfNode t₂ A) :
    SimInv A (astypeNodeId t₁) (astypeNodeId t₂) := by
  have hk₁ := hkey_of_nodeId t₁ h₁
    (fun r => astypeStr (getCell t₁.cols r "node_id")) (fun r _ => rfl)
  have hk₂ := hkey_of_nodeId t₂ h₂
    (fun r => astypeStr (getCell t₂.cols r "node_id")) (fun r _ => rfl)
  have hstep := simStep_rowwise A hcols hA "node_id"
    (fun cols r => astypeStr (getCell cols r "node_id")) hk₁ hk₂
  exact ⟨astypeNodeId_WF t₁ h₁, astypeNodeId_WF t₂ h₂,
    nodeId_mem_astypeNodeId t₁, hstep.1, hstep.2,
    nodeIdStr_astypeNodeId t₁ h₁, nodeIdStr_astypeNodeId t₂ h₂⟩

lemma simInv_sortStage (A : String) {t₁ t₂ : Table}
    (h : SimInv A t₁ t₂) : SimInv A (sortStage t₁) (sortStage t₂) := by
  obtain ⟨h₁, h₂, hnid, hcols, hA, hs₁, hs₂⟩ := h
  refine ⟨sortStage_WF t₁ h₁, sortStage_WF t₂ h₂, hnid, hcols, ?_,
    nodeIdStr_sortStage t₁ hs₁, nodeIdStr_sortStage t₂ hs₂⟩
  rw [rowsOfNode_sortStage, rowsOfNode_sortStage, hA, hcols]

lemma simInv_setCol_ne (A : String) {t₁ t₂ : Table}
    (h : SimInv A t₁ t₂) (c : String) (hcne : c ≠ "node_id")
    (g : List String → Row → Cell) :
    SimInv A (setCol t₁ c (t₁.rows.map (g t₁.cols)))
      (setCol t₂ c (t₂.rows.map (g t₂.cols))) := by
  obtain ⟨h₁, h₂, hnid, hcols, hA, hs₁, hs₂⟩ := h
  have hk₁ := hkey_of_ne t₁ h₁ c hcne (g t₁.cols)
  have hk₂ := hkey_of_ne t₂ h₂ c hcne (g t₂.cols)
  have hstep := simStep_rowwise A hcols hA c g hk₁ hk₂
  exact ⟨setCol_WF t₁ c _ h₁ (by simp), setCol_WF t₂ c _ h₂ (by simp),
    nodeId_mem_setCol t₁ c _ hnid, hstep.1, hstep.2,
    nodeIdStr_setCol_ne t₁ h₁ c hcne _ (by simp) hs₁,
    nodeIdStr_setCol_ne t₂ h₂ c hcne _ (by simp) hs₂⟩

lemma simInv_applyFeatureDefault (A : String) {t₁ t₂ : Table}
    (h : SimInv A t₁ t₂) (fd : String × ℚ) :
    SimInv A (applyFeatureDefault t₁ fd) (applyFeatureDefault t₂ fd) := by
  have hcols := h.2.2.2.1
  by_cases hmem : fd.1 ∈ t₁.cols
  · rw [applyFeatureDefault, if_pos hmem,
      applyFeatureDefault, if_pos (hcols ▸ hmem)]
    by_cases hnd : fd.1 = "node_id"
    · obtain ⟨h₁, h₂, hnid, _, hA, hs₁, hs₂⟩ := h
      have hg₁ : ∀ r ∈ t₁.rows,
          cellToStr (fillCell fd.2 (getCell t₁.cols r "node_id"))
            = keyOf t₁.cols r := by
        intro r hr
        have hstr := hs₁ _ (List.mem_map_of_mem _ hr)
        rw [keyOf]
        cases hcell : getCell t₁.cols r "node_id" with
        | str s => rfl
        | num q => rw [hcell] at hstr; exact absurd hstr (by simp [Cell.isStr])
        | sqrtOf q =>
          rw [hcell] at hstr; exact absurd hstr (by simp [Cell.isStr])
        | null => rw [hcell] at hstr; exact absurd hstr (by simp [Cell.isStr])
      have hg₂ : ∀ r ∈ t₂.rows,
          cellToStr (fillCell fd.2 (getCell t₂.cols r "node_id"))
            = keyOf t₂.cols r := by
        intro r hr
        have hstr := hs₂ _ (List.mem_map_of_mem _ hr)
        rw [keyOf]
        cases hcell : getCell t₂.cols r "node_id" with
        | str s => rfl
        | num q => rw [hcell] at hstr; exact absurd hstr (by simp [Cell.isStr])
        | sqrtOf q =>
          rw [hcell] at hstr; exact absurd hstr (by simp [Cell.isStr])
        | null => rw [hcell] at hstr; exact absurd hstr (by simp [Cell.isStr])
      have hk₁ := hkey_of_nodeId t₁ h₁ _ hg₁
      have hk₂ := hkey_of_nodeId t₂ h₂ _ hg₂
      rw [mapColCells, mapColCells, hnd]
      have hstep := simStep_rowwise A hcols hA "node_id"
        (fun cols r => fillCell fd.2 (getCell cols r "node_id")) hk₁ hk₂
      refine ⟨setCol_WF t₁ _ _ h₁ (by simp), setCol_WF t₂ _ _ h₂ (by simp),
        nodeId_mem_setCol t₁ _ _ hnid, hstep.1, hstep.2, ?_, ?_⟩
      · have := nodeIdStr_mapColCells_nodeId_fill t₁ h₁ fd.2 hs₁
        rwa [mapColCells] at this
      · have := nodeIdStr_mapColCells_nodeId_fill t₂ h₂ fd.2 hs₂
        rwa [mapColCells] at this
    · rw [mapColCells, mapColCells]
      exact simInv_setCol_ne A h fd.1 hnd
        (fun cols r => fillCell fd.2 (getCell cols r fd.1))
  · rw [applyFeatureDefault, if_neg hmem,
      applyFeatureDefault, if_neg (fun hh => hmem (hcols ▸ hh))]
    have hnd : fd.1 ≠ "node_id" := fun hh => hmem (hh ▸ h.2.2.1)
    exact simInv_setCol_ne A h fd.1 hnd (fun _ _ => .num fd.2)

lemma simInv_foldl {β : Type} (A : String) (f : Table → β → Table)
    (hstep : ∀ (b : β) {t₁ t₂ : Table}, SimInv A t₁ t₂ →
      SimInv A (f t₁ b) (f t₂ b)) :
    ∀ (l : List β) {t₁ t₂ : Table}, SimInv A t₁ t₂ →
      SimInv A (l.foldl f t₁) (l.foldl f t₂) := by
  intro l
  induction l with
  | nil => intro t₁ t₂ h; exact h
  | cons b bs ih =>
    intro t₁ t₂ h
    rw [List.foldl_cons, List.foldl_cons]
    exact ih (hstep b h)

lemma simInv_applyFeatureDefaults (A : String) (cfg : FEConfig)
    {t₁ t₂ : Table} (h : SimInv A t₁ t₂) :
    SimInv A (applyFeatureDefaults cfg t₁) (applyFeatureDefaults cfg t₂) :=
  simInv_foldl A applyFeatureDefault
    (fun fd _ _ hh => simInv_applyFeatureDefault A hh fd)
    cfg.feature_defaults h

lemma simInv_applyInteraction (A : String) {t₁ t₂ : Table}
    (h : SimInv A t₁ t₂) (pair : List String) :
    SimInv A (applyInteraction t₁ pair) (applyInteraction t₂ pair) := by
  have hcols := h.2.2.2.1
  rcases pair with _ | ⟨a, _ | ⟨b, _ | ⟨c, rest⟩⟩⟩
  · exact h
  · exact h
  · simp only [applyInteraction]
    by_cases hmem : a ∈ t₁.cols ∧ b ∈ t₁.cols
    · rw [if_pos hmem, if_pos (by rw [← hcols]; exact hmem)]
      exact simInv_setCol_ne A h (interactionName a b)
        (interactionName_ne_nodeId a b)
        (fun cols r => cellMul (getCell cols r a) (getCell cols r b))
    · rw [if_neg hmem, if_neg (by rw [← hcols]; exact hmem)]
      exact h
  · exact h

lemma simInv_engineer_interaction_features (A : String) (cfg : FEConfig)
    {t₁ t₂ : Table} (h : SimInv A t₁ t₂) :
    SimInv A (engineer_interaction_features t₁ cfg)
      (engineer_interaction_features t₂ cfg) :=
  simInv_foldl A applyInteraction
    (fun p _ _ hh => simInv_applyInteraction A hh p)
    cfg.interaction_pairs h

lemma simInv_applyThreshold (A : String) {t₁ t₂ : Table}
    (h : SimInv A t₁ t₂) (th : String × ℚ) :
    SimInv A (applyThreshold t₁ th) (applyThreshold t₂ th) := by
  have hcols := h.2.2.2.1
  rw [applyThreshold, applyThreshold]
  by_cases hmem : th.1 ∈ t₁.cols
  · rw [if_pos hmem, if_pos (hcols ▸ hmem)]
    exact simInv_setCol_ne A h (thresholdName th.1)
      (thresholdName_ne_nodeId th.1)
      (fun cols r => cellGtInt th.2 (getCell cols r th.1))
  · rw [if_neg hmem, if_neg (fun hh => hmem (hcols ▸ hh))]
    exact h

lemma simInv_engineer_threshold_features (A : String) (cfg : FEConfig)
    {t₁ t₂ : Table} (h : SimInv A t₁ t₂) :
    SimInv A (engineer_threshold_features t₁ cfg)
      (engineer_threshold_features t₂ cfg) :=
  simInv_foldl A applyThreshold
    (fun th _ _ hh => simInv_applyThreshold A hh th)
    cfg.thresholds h

lemma simInv_engineerPrepared (A : String) (cfg : FEConfig)
    {t₁ t₂ : Table} (h₁ : t₁.WF) (h₂ : t₂.WF) (hcols : t₁.cols = t₂.cols)
    (hA : rowsOfNode t₁ A = rowsOfNode t₂ A) :
    SimInv A (engineerPrepared cfg t₁) (engineerPrepared cfg t₂) :=
  simInv_engineer_threshold_features A cfg
    (simInv_engineer_interaction_features A cfg
      (simInv_applyFeatureDefaults A cfg
        (simInv_sortStage A (simInv_astypeNodeId A h₁ h₂ hcols hA))))

lemma filter_zipWith_key (cols cols₂ : List String) (A : String)
    (f : Row → Cell → Row) :
    ∀ (rows : List Row) (vals : List Cell),
    (∀ r ∈ rows, ∀ v, keyOf cols₂ (f r v) = keyOf cols r) →
    (List.zipWith f rows vals).filter (fun r => keyOf cols₂ r == A)
      = ((rows.zip vals).filter (fun p => keyOf cols p.1 == A)).map
          (fun p => f p.1 p.2) := by
  intro rows
  induction rows with
  | nil => intro vals _; rfl
  | cons r rs ih =>
    intro vals hkey
    cases vals with
    | nil => rfl
    | cons v vs =>
      simp only [List.zipWith_cons_cons, List.zip_cons_cons, List.filter_cons]
      rw [hkey r (by simp) v]
      by_cases hk : (keyOf cols r == A) = true
      · rw [if_pos hk, if_pos hk, List.map_cons,
          ih vs (fun a ha w => hkey a (List.mem_cons_of_mem r ha) w)]
      · rw [if_neg hk, if_neg hk,
          ih vs (fun a ha w => hkey a (List.mem_cons_of_mem r ha) w)]

lemma zip_mwg_filter (key : Row → String) (h : List Cell → ℕ → Cell)
    (proj : Row → Cell) (full : List Row) (A : String) :
    ∀ (rest pre : List Row),
    ((rest.zip (mwgAux key h proj full pre rest)).filter
        (fun p => key p.1 == A))
      = gpair ((full.filter (fun s => key s == A)).map proj) h
          ((pre.filter (fun s => key s == A)).length)
          (rest.filter (fun s => key s == A)) := by
  intro rest
  induction rest with
  | nil => intro pre; rfl
  | cons r rs ih =>
    intro pre
    simp only [mwgAux, List.zip_cons_cons, List.filter_cons]
    by_cases hk : (key r == A) = true
    · have hkeq : key r = A := by simpa using hk
      rw [if_pos hk, if_pos hk, hkeq, ih (pre ++ [r])]
      simp only [gpair]
      congr 2
      rw [List.filter_append, List.length_append]
      simp [hk]
    · rw [if_neg hk, if_neg hk, ih (pre ++ [r])]
      congr 1
      rw [List.filter_append, List.length_append]
      simp [hk]

lemma rowsOfNode_addGroupCol (t : Table) (hwf : t.WF)
    (A name metric : String) (hname : name ≠ "node_id")
    (h : List Cell → ℕ → Cell) :
    rowsOfNode (addGroupCol t name metric h) A
      = (gpair ((rowsOfNode t A).map (fun r => getCell t.cols r metric)) h 0
          (rowsOfNode t A)).map (fun p => rowUpd t.cols name p.1 p.2) := by
  rw [rowsOfNode, addGroupCol]
  cases hci : colIdx t.cols name with
  | some i =>
    rw [setCol, hci]
    dsimp only
    rw [filter_zipWith_key t.cols t.cols A (fun r v => r.set i v) t.rows _
      (fun r _ v => by
        have hh := keyOf_rowUpd_ne_some hci hname r v
        rwa [rowUpd_some hci] at hh),
      mapWithGroup,
      zip_mwg_filter (keyOf t.cols) h (fun r => getCell t.cols r metric)
        t.rows A t.rows []]
    simp only [List.filter_nil, List.length_nil]
    rw [rowsOfNode]
    apply List.map_congr_left
    intro p _
    show p.1.set i p.2 = rowUpd t.cols name p.1 p.2
    rw [rowUpd_some hci]
  | none =>
    rw [setCol, hci]
    dsimp only
    rw [filter_zipWith_key t.cols (t.cols ++ [name]) A
      (fun r v => r ++ [v]) t.rows _
      (fun r hr v => by
        have hh := keyOf_rowUpd_ne_none hci hname r (hwf.2 r hr) v
        rwa [rowUpd_none hci] at hh),
      mapWithGroup,
      zip_mwg_filter (keyOf t.cols) h (fun r => getCell t.cols r metric)
        t.rows A t.rows []]
    simp only [List.filter_nil, List.length_nil]
    rw [rowsOfNode]
    apply List.map_congr_left
    intro p _
    show p.1 ++ [p.2] = rowUpd t.cols name p.1 p.2
    rw [rowUpd_none hci]

lemma simInv_addGroupCol (A : String) {t₁ t₂ : Table} (h : SimInv A t₁ t₂)
    (name metric : String) (hname : name ≠ "node_id")
    (hfun : List Cell → ℕ → Cell) :
    SimInv A (addGroupCol t₁ name metric hfun)
      (addGroupCol t₂ name metric hfun) := by
  obtain ⟨h₁, h₂, hnid, hcols, hA, hs₁, hs₂⟩ := h
  refine ⟨addGroupCol_WF t₁ name metric hfun h₁,
    addGroupCol_WF t₂ name metric hfun h₂,
    (addGroupCol_colsExt t₁ name metric hfun).mem hnid, ?_, ?_, ?_, ?_⟩
  · rw [addGroupCol, addGroupCol]
    exact setCol_cols_congr hcols name _ _
  · rw [rowsOfNode_addGroupCol t₁ h₁ A name metric hname hfun,
      rowsOfNode_addGroupCol t₂ h₂ A name metric hname hfun, hA, hcols]
  · rw [addGroupCol]
    exact nodeIdStr_setCol_ne t₁ h₁ name hname _
      (mapWithGroup_length _ _ _ _) hs₁
  · rw [addGroupCol]
    exact nodeIdStr_setCol_ne t₂ h₂ name hname _
      (mapWithGroup_length _ _ _ _) hs₂

lemma metricWrites_ne_nodeId (cfg : FEConfig) (m : String) :
    ∀ p ∈ metricWrites cfg m, p.1 ≠ "node_id" := by
  intro p hp
  rw [metricWrites] at hp
  rcases List.mem_cons.mp hp with hp | hp
  · rw [hp]
    exact trendName_ne_nodeId m
  rcases List.mem_append.mp hp with hp | hp
  · obtain ⟨w, _, hw⟩ := List.mem_flatMap.mp hp
    simp only [List.mem_cons, List.mem_singleton, List.not_mem_nil,
      or_false] at hw
    rcases hw with hw | hw
    · rw [hw]
      exact rollingMeanName_ne_nodeId m w
    · rw [hw]
      exact rollingStdName_ne_nodeId m w
  · obtain ⟨k, _, hk⟩ := List.mem_map.mp hp
    rw [← hk]
    exact lagName_ne_nodeId m k

lemma simInv_foldl_mem {β : Type} (A : String) (f : Table → β → Table) :
    ∀ (l : List β), (∀ b ∈ l, ∀ {t₁ t₂ : Table}, SimInv A t₁ t₂ →
      SimInv A (f t₁ b) (f t₂ b)) →
    ∀ {t₁ t₂ : Table}, SimInv A t₁ t₂ →
      SimInv A (l.foldl f t₁) (l.foldl f t₂) := by
  intro l
  induction l with
  | nil => intro _ t₁ t₂ h; exact h
  | cons b bs ih =>
    intro hstep t₁ t₂ h
    rw [List.foldl_cons, List.foldl_cons]
    exact ih (fun c hc => hstep c (List.mem_cons_of_mem b hc))
      (hstep b (List.mem_cons_self b bs) h)

lemma simInv_processMetric (A : String) (cfg : FEConfig) {t₁ t₂ : Table}
    (h : SimInv A t₁ t₂) (m : String) :
    SimInv A (processMetric cfg t₁ m) (processMetric cfg t₂ m) := by
  have hcols := h.2.2.2.1
  by_cases hm : m ∈ t₁.cols
  · rw [processMetric_eq_foldl cfg t₁ m hm,
      processMetric_eq_foldl cfg t₂ m (hcols ▸ hm)]
    exact simInv_foldl_mem A (fun u p => addGroupCol u p.1 m p.2)
      (metricWrites cfg m)
      (fun p hp _ _ hinv =>
        simInv_addGroupCol A hinv p.1 m (metricWrites_ne_nodeId cfg m p hp)
          p.2)
      h
  · rw [processMetric, if_neg hm, processMetric,
      if_neg (fun hh => hm (by rw [hcols]; exact hh))]
    exact h

lemma simInv_deriveStage (A : String) (cfg : FEConfig) {t₁ t₂ : Table}
    (h : SimInv A t₁ t₂) :
    SimInv A (deriveStage cfg t₁) (deriveStage cfg t₂) := by
  rw [deriveStage, deriveStage]
  exact simInv_foldl A (processMetric cfg)
    (fun m _ _ hh => simInv_processMetric A cfg hh m)
    (allMetricsToProcess cfg) h

lemma keyOf_zipWith_fill (cols : List String) (r : Row)
    (hlen : r.length = cols.length) :
    keyOf cols (List.zipWith
      (fun cname cell => if cname ∈ metadataCols then cell else fillCell 0 cell)
      cols r) = keyOf cols r := by
  rw [keyOf, keyOf]
  congr 1
  cases hni : colIdx cols "node_id" with
  | none => rw [getCell, getCell, hni]
  | some j =>
    have hj := colIdx_spec cols "node_id" j hni
    rw [getCell, getCell, hni]
    dsimp only
    rw [getD_zipWith
      (fun cname cell => if cname ∈ metadataCols then cell else fillCell 0 cell)
      cols r j "" Cell.null Cell.null hj.1 (by rw [hlen]; exact hj.1)]
    simp only [hj.2]
    rw [if_pos (by simp [metadataCols])]

lemma rowsOfNode_fillnaStage (t : Table) (hwf : t.WF) (A : String) :
    rowsOfNode (fillnaStage t) A = (rowsOfNode t A).map (fun r =>
      List.zipWith (fun cname cell =>
        if cname ∈ metadataCols then cell else fillCell 0 cell) t.cols r) := by
  rw [rowsOfNode, rowsOfNode, fillnaStage]
  dsimp only
  rw [List.filter_map]
  congr 1
  apply List.filter_congr
  intro r hr
  simp only [Function.comp]
  rw [keyOf_zipWith_fill t.cols r (hwf.2 r hr)]

lemma simInv_fillnaStage (A : String) {t₁ t₂ : Table} (h : SimInv A t₁ t₂) :
    SimInv A (fillnaStage t₁) (fillnaStage t₂) := by
  obtain ⟨h₁, h₂, hnid, hcols, hA, hs₁, hs₂⟩ := h
  refine ⟨fillnaStage_WF t₁ h₁, fillnaStage_WF t₂ h₂, hnid, hcols, ?_,
    nodeIdStr_fillnaStage t₁ h₁ hnid hs₁,
    nodeIdStr_fillnaStage t₂ h₂ (hcols ▸ hnid) hs₂⟩
  rw [rowsOfNode_fillnaStage t₁ h₁ A, rowsOfNode_fillnaStage t₂ h₂ A,
    hA, hcols]

lemma simInv_engineerBody (A : String) (cfg : FEConfig) {t₁ t₂ : Table}
    (h₁ : t₁.WF) (h₂ : t₂.WF) (hcols : t₁.cols = t₂.cols)
    (hA : rowsOfNode t₁ A = rowsOfNode t₂ A) :
    SimInv A (engineerBody cfg t₁) (engineerBody cfg t₂) := by
  rw [engineerBody, engineerBody, engineerDerived, engineerDerived]
  have hprep := simInv_engineerPrepared A cfg h₁ h₂ hcols hA
  have hder := simInv_deriveStage A cfg hprep
  have hfill := simInv_fillnaStage A hder
  exact simInv_astypeNodeId A hfill.1 hfill.2.1 hfill.2.2.2.1
    hfill.2.2.2.2.1

/-- C9: per-node rolling independence.  For any two well-formed input
tables with the same schema that agree on node `A`'s samples (node `B`'s
history may differ arbitrarily — different values, more or fewer rows),
whenever `engineer_features` accepts both, the engineered outputs have
the same schema and identical rows for node `A`: the per-node trend,
rolling-mean, rolling-std and lag computations for one node never read
another node's history. -/
theorem engineer_features_per_node_independence (cfg : FEConfig)
    (t₁ t₂ u₁ u₂ : Table) (A : String)
    (hwf₁ : t₁.WF) (hwf₂ : t₂.WF)
    (hok₁ : engineer_features cfg t₁ = .ok u₁)
    (hok₂ : engineer_features cfg t₂ = .ok u₂)
    (hcols : t₁.cols = t₂.cols)
    (hA : rowsOfNode t₁ A = rowsOfNode t₂ A) :
    u₁.cols = u₂.cols ∧ rowsOfNode u₁ A = rowsOfNode u₂ A := by
  obtain ⟨_, _, hu₁⟩ := (engineer_features_ok_iff cfg t₁ u₁).mp hok₁
  obtain ⟨_, _, hu₂⟩ := (engineer_features_ok_iff cfg t₂ u₂).mp hok₂
  subst hu₁
  subst hu₂
  have h := simInv_engineerBody A cfg hwf₁ hwf₂ hcols hA
  exact ⟨h.2.2.2.1, h.2.2.2.2.1⟩

theorem engineer_features_per_node_independence_witness :
    tEx.cols = tEx2.cols ∧ rowsOfNode tEx "a" = rowsOfNode tEx2 "a"
    ∧ ((engineerBody cfgEx tEx).cols = (engineerBody cfgEx tEx2).cols
      ∧ rowsOfNode (engineerBody cfgEx tEx) "a"
          = rowsOfNode (engineerBody cfgEx tEx2) "a") :=
  ⟨by decide, by decide,
   engineer_features_per_node_independence cfgEx tEx tEx2
     (engineerBody cfgEx tEx) (engineerBody cfgEx tEx2) "a"
     (by decide) (by decide) rfl rfl (by decide) (by decide)⟩

end Vigil
